import Mathlib

/-!
Verification development for the claude-convo conversation-log tool.

The Rust sources are embedded shallowly:

* strings are lists of Unicode scalar values (`List Char`); byte offsets of
  the source (UTF-8) are recovered through `Char.utf8Size`;
* `str::to_lowercase` is modelled per character by `Char.toLower` (the ASCII
  case mapping), and `char::is_whitespace` by `Char.isWhitespace`;
* IEEE-754 `f64` values are modelled by `FVal` (exact rationals plus the
  special values `inf`, `neginf`, `nan`, with an unsigned zero); `f64::ln`
  is an abstract parameter of the scorer;
* `HashMap` is modelled by an association list;
* fallible operations (byte slicing of `str`, the `partial_cmp` based sort)
  return `Option`, `none` modelling a Rust panic.
-/

set_option linter.unusedVariables false

namespace Convo

/-! ## Tokenizer (src/bm25.rs, `tokenize`) -/

/-- Splitter with an accumulator holding the current (reversed) token:
model of Rust `str::split_whitespace`, which yields the maximal runs of
non-whitespace characters of a string. -/
def splitWsGo : List Char → List Char → List (List Char)
  | [], acc => if acc.isEmpty then [] else [acc.reverse]
  | c :: cs, acc =>
    if c.isWhitespace then
      if acc.isEmpty then splitWsGo cs [] else acc.reverse :: splitWsGo cs []
    else splitWsGo cs (c :: acc)

/-- Model of Rust `str::split_whitespace`. -/
def split_whitespace (l : List Char) : List (List Char) := splitWsGo l []

/-- Model of `tokenize` in src/bm25.rs: lowercase, split on whitespace, drop
empty tokens (the final filter mirrors the source's redundant
`.filter(|s| !s.is_empty())`). -/
def tokenize (text : List Char) : List (List Char) :=
  (split_whitespace (text.map Char.toLower)).filter (fun s => !s.isEmpty)

/-- Join a list of tokens with a separator (model of joining strings with a
separator, used to state the idempotence property). -/
def joinWith (sep : List Char) : List (List Char) → List Char
  | [] => []
  | [t] => t
  | t :: ts => t ++ sep ++ joinWith sep ts

/-! ### Tokenizer lemmas -/

theorem splitWsGo_append {t : List Char} (ht : ∀ c ∈ t, c.isWhitespace = false) :
    ∀ (r acc : List Char), splitWsGo (t ++ r) acc = splitWsGo r (t.reverse ++ acc) := by
  induction t with
  | nil => intro r acc; simp
  | cons c cs ih =>
    intro r acc
    have hc : c.isWhitespace = false := ht c (by simp)
    have ih' := ih (fun d hd => ht d (by simp [hd]))
    calc splitWsGo (c :: cs ++ r) acc
        = splitWsGo (cs ++ r) (c :: acc) := by simp [splitWsGo, hc]
      _ = splitWsGo r (cs.reverse ++ (c :: acc)) := ih' r (c :: acc)
      _ = splitWsGo r ((c :: cs).reverse ++ acc) := by simp

theorem mem_splitWsGo : ∀ (cs acc tok : List Char),
    (∀ c ∈ acc, c.isWhitespace = false) →
    tok ∈ splitWsGo cs acc → tok ≠ [] ∧ ∀ c ∈ tok, c.isWhitespace = false := by
  intro cs
  induction cs with
  | nil =>
    intro acc tok hacc htok
    by_cases h : acc.isEmpty
    · simp [splitWsGo, h] at htok
    · simp [splitWsGo, h] at htok
      subst htok
      constructor
      · simp [List.isEmpty_iff] at h
        simpa using h
      · intro c hc
        exact hacc c (by simpa using hc)
  | cons c cs ih =>
    intro acc tok hacc htok
    by_cases hws : c.isWhitespace
    · by_cases hacc0 : acc.isEmpty
      · simp [splitWsGo, hws, hacc0] at htok
        exact ih [] tok (by simp) htok
      · simp [splitWsGo, hws, hacc0] at htok
        rcases htok with rfl | htok
        · constructor
          · simp [List.isEmpty_iff] at hacc0
            simpa using hacc0
          · intro d hd
            exact hacc d (by simpa using hd)
        · exact ih [] tok (by simp) htok
    · simp [splitWsGo, hws] at htok
      refine ih (c :: acc) tok ?_ htok
      intro d hd
      rcases List.mem_cons.mp hd with rfl | hd
      · simpa using hws
      · exact hacc d hd

theorem chars_of_splitWsGo : ∀ (cs acc tok : List Char),
    tok ∈ splitWsGo cs acc → ∀ c ∈ tok, c ∈ acc ∨ c ∈ cs := by
  intro cs
  induction cs with
  | nil =>
    intro acc tok htok c hc
    by_cases h : acc.isEmpty
    · simp [splitWsGo, h] at htok
    · simp [splitWsGo, h] at htok
      subst htok
      left; simpa using hc
  | cons a cs ih =>
    intro acc tok htok c hc
    by_cases hws : a.isWhitespace
    · by_cases hacc0 : acc.isEmpty
      · simp [splitWsGo, hws, hacc0] at htok
        rcases ih [] tok htok c hc with h | h
        · simp at h
        · right; simp [h]
      · simp [splitWsGo, hws, hacc0] at htok
        rcases htok with rfl | htok
        · left; simpa using hc
        · rcases ih [] tok htok c hc with h | h
          · simp at h
          · right; simp [h]
    · simp [splitWsGo, hws] at htok
      rcases ih (a :: acc) tok htok c hc with h | h
      · rcases List.mem_cons.mp h with rfl | h
        · right; simp
        · left; exact h
      · right; simp [h]

theorem splitWs_joinWith : ∀ (toks : List (List Char)),
    (∀ t ∈ toks, t ≠ [] ∧ ∀ c ∈ t, c.isWhitespace = false) →
    split_whitespace (joinWith [' '] toks) = toks := by
  intro toks
  induction toks with
  | nil => intro h; rfl
  | cons t ts ih =>
    intro h
    obtain ⟨htne, htws⟩ := h t (by simp)
    cases ts with
    | nil =>
      have h2 := splitWsGo_append htws [] []
      simp only [List.append_nil] at h2
      show split_whitespace (joinWith [' '] [t]) = [t]
      simp only [joinWith, split_whitespace]
      rw [h2]
      simp [splitWsGo, List.isEmpty_iff, htne]
    | cons t2 ts2 =>
      have h2 := splitWsGo_append htws (' ' :: joinWith [' '] (t2 :: ts2)) []
      simp only [List.append_nil] at h2
      have hj : joinWith [' '] (t :: t2 :: ts2)
          = t ++ ' ' :: joinWith [' '] (t2 :: ts2) := by
        simp [joinWith]
      have hih := ih (fun u hu => h u (by simp [hu]))
      have hsp : (' ' : Char).isWhitespace = true := rfl
      show split_whitespace (joinWith [' '] (t :: t2 :: ts2)) = t :: t2 :: ts2
      simp only [split_whitespace] at hih ⊢
      rw [hj, h2]
      simp [splitWsGo, hsp, List.isEmpty_iff, htne, hih]

theorem char_toLower_toLower (c : Char) : c.toLower.toLower = c.toLower := by
  unfold Char.toLower
  by_cases h : c.toNat ≥ 65 ∧ c.toNat ≤ 90
  · rw [if_pos h]
    obtain ⟨h1, h2⟩ := h
    have hval : (Char.ofNat (c.toNat + 32)).toNat = c.toNat + 32 := by
      set n := c.toNat with hn
      interval_cases n <;> decide
    rw [if_neg (by omega)]
  · rw [if_neg h]
    rw [if_neg h]

theorem toLower_of_mem_map_toLower {x : List Char} {c : Char}
    (hc : c ∈ x.map Char.toLower) : c.toLower = c := by
  rcases List.mem_map.mp hc with ⟨d, _, rfl⟩
  exact char_toLower_toLower d

theorem tokenize_eq_splitWs (x : List Char) :
    tokenize x = split_whitespace (x.map Char.toLower) := by
  unfold tokenize
  rw [List.filter_eq_self]
  intro t ht
  have := mem_splitWsGo (x.map Char.toLower) [] t (by simp) ht
  simpa [List.isEmpty_iff] using this.1

theorem tokenize_tokens (x : List Char) :
    ∀ t ∈ tokenize x, t ≠ [] ∧ ∀ c ∈ t, c.isWhitespace = false := by
  intro t ht
  rw [tokenize_eq_splitWs] at ht
  exact mem_splitWsGo (x.map Char.toLower) [] t (by simp) ht

theorem tokenize_chars_lower (x : List Char) :
    ∀ t ∈ tokenize x, ∀ c ∈ t, c.toLower = c := by
  intro t ht c hc
  rw [tokenize_eq_splitWs] at ht
  rcases chars_of_splitWsGo (x.map Char.toLower) [] t ht c hc with h | h
  · simp at h
  · exact toLower_of_mem_map_toLower h

theorem map_id_of_forall_eq {α : Type} {f : α → α} :
    ∀ (l : List α), (∀ c ∈ l, f c = c) → l.map f = l := by
  intro l
  induction l with
  | nil => intro h; rfl
  | cons c cs ih =>
    intro h
    simp only [List.map_cons]
    rw [h c (by simp), ih (fun d hd => h d (by simp [hd]))]

theorem map_toLower_joinWith (toks : List (List Char))
    (h : ∀ t ∈ toks, ∀ c ∈ t, c.toLower = c) :
    (joinWith [' '] toks).map Char.toLower = joinWith [' '] toks := by
  induction toks with
  | nil => rfl
  | cons t ts ih =>
    cases ts with
    | nil =>
      show (joinWith [' '] [t]).map Char.toLower = joinWith [' '] [t]
      simp only [joinWith]
      exact map_id_of_forall_eq t (h t (by simp))
    | cons t2 ts2 =>
      show (t ++ [' '] ++ joinWith [' '] (t2 :: ts2)).map Char.toLower
          = t ++ [' '] ++ joinWith [' '] (t2 :: ts2)
      rw [List.map_append, List.map_append]
      rw [map_id_of_forall_eq t (h t (by simp))]
      rw [ih (fun u hu => h u (by simp [hu]))]
      rfl

/-- C9: tokenization is idempotent — tokenizing the whitespace-rejoined
output of `tokenize x` yields exactly the token sequence `tokenize x`
again, for every string. -/
theorem tokenize_joinWith_tokenize (x : List Char) :
    tokenize (joinWith [' '] (tokenize x)) = tokenize x := by
  have htoks := tokenize_tokens x
  have hlower := tokenize_chars_lower x
  rw [tokenize_eq_splitWs (joinWith [' '] (tokenize x))]
  rw [map_toLower_joinWith (tokenize x) hlower]
  exact splitWs_joinWith (tokenize x) htoks

/-! ## Byte-offset primitives (UTF-8 view of a `List Char`)

Rust `str` values are indexed by bytes.  The helpers below recover the byte
view of a `List Char`: `byteLen` is `str::len`, `isBoundaryB` is
`str::is_char_boundary`, `byteDrop?`/`byteTake?` model byte slicing (`none`
models the panic on a non-boundary index), and `byteTakeUp`/`byteTakeDown`
are the char prefixes whose byte length is the nearest boundary at or
above / below a byte index. -/

/-- Byte length of a string (model of `str::len`). -/
def byteLen (cs : List Char) : Nat := (cs.map Char.utf8Size).sum

/-- Model of `str::is_char_boundary` (false above the byte length, as in
Rust). -/
def isBoundaryB : List Char → Nat → Bool
  | _, 0 => true
  | [], _ + 1 => false
  | c :: cs, n + 1 =>
    if c.utf8Size ≤ n + 1 then isBoundaryB cs (n + 1 - c.utf8Size) else false

/-- Model of the suffix slice `s[n..]`: `none` when `n` is not a char
boundary of `s` (a Rust panic). -/
def byteDrop? : Nat → List Char → Option (List Char)
  | 0, cs => some cs
  | _ + 1, [] => none
  | n + 1, c :: cs =>
    if c.utf8Size ≤ n + 1 then byteDrop? (n + 1 - c.utf8Size) cs else none

/-- Model of the prefix slice `s[..n]`: `none` when `n` is not a char
boundary of `s` (a Rust panic). -/
def byteTake? : Nat → List Char → Option (List Char)
  | 0, _ => some []
  | _ + 1, [] => none
  | n + 1, c :: cs =>
    if c.utf8Size ≤ n + 1 then (byteTake? (n + 1 - c.utf8Size) cs).map (c :: ·)
    else none

/-- Char prefix whose byte length is the smallest char boundary at or above
`min n (byteLen cs)`. -/
def byteTakeUp : Nat → List Char → List Char
  | _, [] => []
  | n, c :: cs => if n = 0 then [] else c :: byteTakeUp (n - c.utf8Size) cs

/-- Char prefix whose byte length is the largest char boundary at or below
`n`. -/
def byteTakeDown : Nat → List Char → List Char
  | _, [] => []
  | n, c :: cs =>
    if c.utf8Size ≤ n then c :: byteTakeDown (n - c.utf8Size) cs else []

/-- Fuel-indexed model of the loop
`while e < text.len() && !text.is_char_boundary(e) { e += 1 }`
(src/main.rs, snippet extraction and highlighting). -/
def snapUpLoop : Nat → List Char → Nat → Nat
  | 0, _, e => e
  | fuel + 1, text, e =>
    if e < byteLen text && !isBoundaryB text e then snapUpLoop fuel text (e + 1)
    else e

/-- Fuel-indexed model of the loop
`while s > 0 && !text.is_char_boundary(s) { s -= 1 }`
(src/main.rs, snippet extraction and highlighting). -/
def snapDownLoop : Nat → List Char → Nat → Nat
  | 0, _, s => s
  | fuel + 1, text, s =>
    if 0 < s && !isBoundaryB text s then snapDownLoop fuel text (s - 1)
    else s

/-- Prefix test on char lists (model of byte-level prefix matching of two
UTF-8 strings, which can only succeed at a char boundary). -/
def beginsWith : List Char → List Char → Bool
  | [], _ => true
  | _ :: _, [] => false
  | a :: as, b :: bs => a == b && beginsWith as bs

/-- Model of `str::find(&str)`: byte offset of the first substring
occurrence. -/
def substrFind (w : List Char) : List Char → Option Nat
  | [] => if beginsWith w [] then some 0 else none
  | c :: cs =>
    if beginsWith w (c :: cs) then some 0
    else (substrFind w cs).map (fun k => c.utf8Size + k)

/-- Model of `str::trim` (leading and trailing whitespace removed). -/
def trimChars (cs : List Char) : List Char :=
  ((cs.dropWhile Char.isWhitespace).reverse.dropWhile Char.isWhitespace).reverse

/-! ### Byte-offset lemmas -/

theorem byteLen_append (a b : List Char) :
    byteLen (a ++ b) = byteLen a + byteLen b := by
  simp [byteLen]

theorem utf8Size_pos (c : Char) : 0 < c.utf8Size := c.utf8Size_pos

theorem isBoundary_byteLen_take (cs : List Char) :
    ∀ i, isBoundaryB cs (byteLen (cs.take i)) = true := by
  induction cs with
  | nil => intro i; simp [byteLen, isBoundaryB]
  | cons c cs ih =>
    intro i
    cases i with
    | zero => simp [byteLen, isBoundaryB]
    | succ j =>
      have hpos := utf8Size_pos c
      have hlen : byteLen ((c :: cs).take (j + 1)) = c.utf8Size + byteLen (cs.take j) := by
        simp [byteLen]
      rw [hlen]
      have : c.utf8Size + byteLen (cs.take j) = (c.utf8Size + byteLen (cs.take j) - 1) + 1 := by
        omega
      rw [this, isBoundaryB]
      rw [if_pos (by omega)]
      have : c.utf8Size + byteLen (cs.take j) - 1 + 1 - c.utf8Size = byteLen (cs.take j) := by
        omega
      rw [this]
      exact ih j

theorem isBoundaryB_le (cs : List Char) :
    ∀ n, isBoundaryB cs n = true → n ≤ byteLen cs := by
  induction cs with
  | nil =>
    intro n h
    cases n with
    | zero => simp
    | succ m => simp [isBoundaryB] at h
  | cons c cs ih =>
    intro n h
    cases n with
    | zero => simp
    | succ m =>
      rw [isBoundaryB] at h
      by_cases hle : c.utf8Size ≤ m + 1
      · rw [if_pos hle] at h
        have := ih (m + 1 - c.utf8Size) h
        have : m + 1 - c.utf8Size ≤ byteLen cs := this
        have hblen : byteLen (c :: cs) = c.utf8Size + byteLen cs := by
          simp [byteLen]
        omega
      · rw [if_neg hle] at h
        exact absurd h (by simp)

theorem isBoundaryB_exists_take (cs : List Char) :
    ∀ n, isBoundaryB cs n = true → ∃ i, n = byteLen (cs.take i) := by
  induction cs with
  | nil =>
    intro n h
    cases n with
    | zero => exact ⟨0, rfl⟩
    | succ m => simp [isBoundaryB] at h
  | cons c cs ih =>
    intro n h
    cases n with
    | zero => exact ⟨0, rfl⟩
    | succ m =>
      rw [isBoundaryB] at h
      by_cases hle : c.utf8Size ≤ m + 1
      · rw [if_pos hle] at h
        obtain ⟨i, hi⟩ := ih (m + 1 - c.utf8Size) h
        refine ⟨i + 1, ?_⟩
        have : byteLen ((c :: cs).take (i + 1)) = c.utf8Size + byteLen (cs.take i) := by
          simp [byteLen]
        omega
      · rw [if_neg hle] at h
        exact absurd h (by simp)

theorem byteLen_take_le (cs : List Char) (i : Nat) :
    byteLen (cs.take i) ≤ byteLen cs := by
  conv_rhs => rw [← List.take_append_drop i cs]
  rw [byteLen_append]
  omega

theorem isBoundaryB_byteLen (cs : List Char) :
    isBoundaryB cs (byteLen cs) = true := by
  have := isBoundary_byteLen_take cs cs.length
  simpa using this

theorem byteTakeUp_succ_of_not_boundary (cs : List Char) :
    ∀ e, isBoundaryB cs e = false → byteTakeUp e cs = byteTakeUp (e + 1) cs := by
  induction cs with
  | nil => intro e h; rfl
  | cons c cs ih =>
    intro e h
    cases e with
    | zero => simp [isBoundaryB] at h
    | succ m =>
      rw [isBoundaryB] at h
      by_cases hle : c.utf8Size ≤ m + 1
      · rw [if_pos hle] at h
        have ihe := ih (m + 1 - c.utf8Size) h
        show byteTakeUp (m + 1) (c :: cs) = byteTakeUp (m + 2) (c :: cs)
        rw [byteTakeUp, byteTakeUp, if_neg (by omega), if_neg (by omega)]
        have h1 : m + 1 - c.utf8Size + 1 = m + 2 - c.utf8Size := by omega
        rw [← h1, ← ihe]
      · show byteTakeUp (m + 1) (c :: cs) = byteTakeUp (m + 2) (c :: cs)
        rw [byteTakeUp, byteTakeUp, if_neg (by omega), if_neg (by omega)]
        rw [show m + 1 - c.utf8Size = 0 by omega, show m + 2 - c.utf8Size = 0 by omega]

theorem byteTake?_of_boundary (cs : List Char) :
    ∀ e, isBoundaryB cs e = true → byteTake? e cs = some (byteTakeUp e cs) := by
  induction cs with
  | nil =>
    intro e h
    cases e with
    | zero => rfl
    | succ m => simp [isBoundaryB] at h
  | cons c cs ih =>
    intro e h
    cases e with
    | zero => rfl
    | succ m =>
      rw [isBoundaryB] at h
      by_cases hle : c.utf8Size ≤ m + 1
      · rw [if_pos hle] at h
        rw [byteTake?, if_pos hle, ih (m + 1 - c.utf8Size) h]
        rw [byteTakeUp, if_neg (by omega)]
        rfl
      · rw [if_neg hle] at h
        exact absurd h (by simp)

theorem byteTakeUp_of_byteLen_le (cs : List Char) :
    ∀ n, byteLen cs ≤ n → byteTakeUp n cs = cs := by
  induction cs with
  | nil => intro n h; rfl
  | cons c cs ih =>
    intro n h
    have hpos := utf8Size_pos c
    have hblen : byteLen (c :: cs) = c.utf8Size + byteLen cs := by simp [byteLen]
    rw [byteTakeUp, if_neg (by omega), ih (n - c.utf8Size) (by omega)]

theorem byteTakeUp_min_byteLen (cs : List Char) (n : Nat) :
    byteTakeUp (min n (byteLen cs)) cs = byteTakeUp n cs := by
  by_cases h : n ≤ byteLen cs
  · rw [min_eq_left h]
  · rw [min_eq_right (by omega)]
    rw [byteTakeUp_of_byteLen_le cs (byteLen cs) (le_refl _)]
    rw [byteTakeUp_of_byteLen_le cs n (by omega)]

theorem snapUpLoop_take (text : List Char) :
    ∀ fuel e, e ≤ byteLen text → byteLen text - e < fuel →
      byteTake? (snapUpLoop fuel text e) text = some (byteTakeUp e text) := by
  intro fuel
  induction fuel with
  | zero => intro e h1 h2; omega
  | succ fuel ih =>
    intro e h1 h2
    rw [snapUpLoop]
    by_cases hcond : e < byteLen text ∧ isBoundaryB text e = false
    · rw [if_pos (by simp [hcond.1, hcond.2])]
      rw [ih (e + 1) (by omega) (by omega)]
      rw [byteTakeUp_succ_of_not_boundary text e hcond.2]
    · have hb : isBoundaryB text e = true := by
        by_cases hlt : e < byteLen text
        · by_contra hfalse
          exact hcond ⟨hlt, by simpa using hfalse⟩
        · have he : e = byteLen text := by omega
          rw [he]
          exact isBoundaryB_byteLen text
      rw [if_neg (by simp [hb])]
      exact byteTake?_of_boundary text e hb

theorem snapUpLoop_eq_of_boundary (text : List Char) (fuel e : Nat)
    (h : isBoundaryB text e = true) : snapUpLoop fuel text e = e := by
  cases fuel with
  | zero => rfl
  | succ fuel => rw [snapUpLoop, if_neg (by simp [h])]

theorem snapDownLoop_eq_of_boundary (text : List Char) (fuel s : Nat)
    (h : isBoundaryB text s = true) : snapDownLoop fuel text s = s := by
  cases fuel with
  | zero => rfl
  | succ fuel => rw [snapDownLoop, if_neg (by simp [h])]

theorem byteDrop?_some (cs : List Char) :
    ∀ n s, byteDrop? n cs = some s → ∃ i, n = byteLen (cs.take i) ∧ s = cs.drop i := by
  induction cs with
  | nil =>
    intro n s h
    cases n with
    | zero =>
      refine ⟨0, by simp [byteLen], ?_⟩
      simpa [byteDrop?] using h.symm
    | succ m => simp [byteDrop?] at h
  | cons c cs ih =>
    intro n s h
    cases n with
    | zero =>
      refine ⟨0, by simp [byteLen], ?_⟩
      simpa [byteDrop?] using h.symm
    | succ m =>
      rw [byteDrop?] at h
      by_cases hle : c.utf8Size ≤ m + 1
      · rw [if_pos hle] at h
        obtain ⟨i, hi, hs⟩ := ih (m + 1 - c.utf8Size) s h
        refine ⟨i + 1, ?_, by simpa using hs⟩
        have : byteLen ((c :: cs).take (i + 1)) = c.utf8Size + byteLen (cs.take i) := by
          simp [byteLen]
        omega
      · rw [if_neg hle] at h
        exact absurd h (by simp)

theorem beginsWith_take {w : List Char} :
    ∀ {l : List Char}, beginsWith w l = true → l.take w.length = w := by
  induction w with
  | nil => intro l h; simp
  | cons a as ih =>
    intro l h
    cases l with
    | nil => simp [beginsWith] at h
    | cons b bs =>
      rw [beginsWith, Bool.and_eq_true, beq_iff_eq] at h
      obtain ⟨rfl, h2⟩ := h
      simp [ih h2]

theorem substrFind_some (w : List Char) :
    ∀ (hay : List Char) (k : Nat), substrFind w hay = some k →
      ∃ i, k = byteLen (hay.take i) ∧ beginsWith w (hay.drop i) = true := by
  intro hay
  induction hay with
  | nil =>
    intro k h
    rw [substrFind] at h
    by_cases hb : beginsWith w [] = true
    · rw [if_pos hb] at h
      exact ⟨0, by simpa using h.symm, by simpa using hb⟩
    · rw [if_neg hb] at h
      exact absurd h (by simp)
  | cons c cs ih =>
    intro k h
    rw [substrFind] at h
    by_cases hb : beginsWith w (c :: cs) = true
    · rw [if_pos hb] at h
      exact ⟨0, by simpa [byteLen] using h.symm, by simpa using hb⟩
    · rw [if_neg hb] at h
      rw [Option.map_eq_some'] at h
      obtain ⟨k2, hk2, rfl⟩ := h
      obtain ⟨i, hi, hbg⟩ := ih k2 hk2
      refine ⟨i + 1, ?_, by simpa using hbg⟩
      have : byteLen ((c :: cs).take (i + 1)) = c.utf8Size + byteLen (cs.take i) := by
        simp [byteLen]
      omega

theorem substrFind_boundaries (w hay : List Char) (k : Nat)
    (h : substrFind w hay = some k) :
    isBoundaryB hay k = true ∧ isBoundaryB hay (k + byteLen w) = true ∧
      k + byteLen w ≤ byteLen hay := by
  obtain ⟨i, hi, hbg⟩ := substrFind_some w hay k h
  have htake := beginsWith_take hbg
  have hsplit : hay.take (i + w.length) = hay.take i ++ w := by
    rw [List.take_add, htake]
  have hlen : byteLen (hay.take (i + w.length)) = k + byteLen w := by
    rw [hsplit, byteLen_append, hi]
  refine ⟨hi ▸ isBoundary_byteLen_take hay i, ?_, ?_⟩
  · rw [← hlen]
    exact isBoundary_byteLen_take hay (i + w.length)
  · rw [← hlen]
    exact byteLen_take_le hay (i + w.length)

theorem char_toNat_ofNat_add32 {n : Nat} (h1 : 65 ≤ n) (h2 : n ≤ 90) :
    (Char.ofNat (n + 32)).toNat = n + 32 := by
  interval_cases n <;> decide

theorem utf8Size_eq_one_of_toNat_le {c : Char} (h : c.toNat ≤ 127) :
    c.utf8Size = 1 := by
  have hv : c.val ≤ UInt32.ofNatCore 0x7F (by decide) := by
    rw [UInt32.le_def, BitVec.le_def]
    exact h
  unfold Char.utf8Size
  rw [if_pos hv]

theorem utf8Size_toLower (c : Char) : c.toLower.utf8Size = c.utf8Size := by
  unfold Char.toLower
  by_cases h : c.toNat ≥ 65 ∧ c.toNat ≤ 90
  · rw [if_pos h]
    obtain ⟨h1, h2⟩ := h
    have hval := char_toNat_ofNat_add32 h1 h2
    rw [utf8Size_eq_one_of_toNat_le (by omega),
      utf8Size_eq_one_of_toNat_le (by omega)]
  · rw [if_neg h]

theorem byteLen_map_toLower (cs : List Char) :
    byteLen (cs.map Char.toLower) = byteLen cs := by
  induction cs with
  | nil => rfl
  | cons c cs ih =>
    simp only [List.map_cons, byteLen, List.map_cons, List.sum_cons] at *
    rw [utf8Size_toLower, ih]

theorem isBoundaryB_map_toLower (cs : List Char) :
    ∀ n, isBoundaryB (cs.map Char.toLower) n = isBoundaryB cs n := by
  induction cs with
  | nil => intro n; rfl
  | cons c cs ih =>
    intro n
    cases n with
    | zero => rfl
    | succ m =>
      show isBoundaryB (c.toLower :: cs.map Char.toLower) (m + 1) = _
      rw [isBoundaryB, isBoundaryB, utf8Size_toLower, ih]

/-! ## Floating-point model

`FVal` models an IEEE-754 binary64 value: `fin q` is a finite value with
exact rational magnitude, plus `inf`, `neginf` and `nan`.  Zero is unsigned
(the computations verified below never produce a negative zero whose sign
could be observed).  Arithmetic on finite values is exact where the source
relies only on exactly-representable quantities; the special-value rules
(`x / 0`, `x / inf`, `0 * inf`, comparisons with `nan`, ...) follow
IEEE 754, which is what the verified properties depend on. -/

inductive FVal where
  | nan : FVal
  | neginf : FVal
  | fin : ℚ → FVal
  | inf : FVal
deriving DecidableEq

namespace FVal

/-- IEEE addition. -/
def fadd : FVal → FVal → FVal
  | nan, _ => nan
  | _, nan => nan
  | inf, neginf => nan
  | inf, _ => inf
  | neginf, inf => nan
  | neginf, _ => neginf
  | fin _, inf => inf
  | fin _, neginf => neginf
  | fin a, fin b => fin (a + b)

/-- IEEE multiplication. -/
def fmul : FVal → FVal → FVal
  | nan, _ => nan
  | _, nan => nan
  | inf, inf => inf
  | inf, neginf => neginf
  | inf, fin b => if 0 < b then inf else if b < 0 then neginf else nan
  | neginf, inf => neginf
  | neginf, neginf => inf
  | neginf, fin b => if 0 < b then neginf else if b < 0 then inf else nan
  | fin a, inf => if 0 < a then inf else if a < 0 then neginf else nan
  | fin a, neginf => if 0 < a then neginf else if a < 0 then inf else nan
  | fin a, fin b => fin (a * b)

/-- IEEE division (an unsigned zero divisor is treated as `+0`, which is the
only zero the verified computations produce). -/
def fdiv : FVal → FVal → FVal
  | nan, _ => nan
  | _, nan => nan
  | inf, inf => nan
  | inf, neginf => nan
  | inf, fin b => if 0 ≤ b then inf else neginf
  | neginf, inf => nan
  | neginf, neginf => nan
  | neginf, fin b => if 0 ≤ b then neginf else inf
  | fin _, inf => fin 0
  | fin _, neginf => fin 0
  | fin a, fin b =>
    if b = 0 then (if a = 0 then nan else if 0 < a then inf else neginf)
    else fin (a / b)

/-- IEEE `partial_cmp`: `none` exactly when one operand is `nan`. -/
def fcmp : FVal → FVal → Option Ordering
  | nan, _ => none
  | _, nan => none
  | inf, inf => some .eq
  | inf, _ => some .gt
  | neginf, neginf => some .eq
  | neginf, _ => some .lt
  | fin _, inf => some .lt
  | fin _, neginf => some .gt
  | fin a, fin b => some (compare a b)

/-- Model of the Rust operator `>` on `f64` (false when either side is
`nan`). -/
def fgt (a b : FVal) : Bool := fcmp a b == some .gt

theorem not_nan_of_fgt_zero {s : FVal} (h : fgt s (fin 0) = true) : s ≠ nan := by
  intro hs
  subst hs
  simp [fgt, fcmp] at h

theorem fcmp_isSome_of_not_nan {a b : FVal} (ha : a ≠ nan) (hb : b ≠ nan) :
    (fcmp a b).isSome = true := by
  cases a <;> cases b <;> simp_all [fcmp]

theorem fcmp_gt_symm {a b : FVal} (h : fcmp a b = some .gt) :
    fcmp b a = some .lt := by
  cases a <;> cases b <;> simp_all [fcmp]
  exact compare_lt_iff_lt.mpr (compare_gt_iff_gt.mp h)

theorem fcmp_lt_symm {a b : FVal} (h : fcmp a b = some .lt) :
    fcmp b a = some .gt := by
  cases a <;> cases b <;> simp_all [fcmp]
  exact compare_gt_iff_gt.mpr (compare_lt_iff_lt.mp h)

theorem fcmp_eq_eq {a b : FVal} (ha : a ≠ nan) (h : fcmp a b = some .eq) :
    a = b := by
  cases a <;> cases b <;> simp_all [fcmp]
  exact compare_eq_iff_eq.mp h

theorem fcmp_gt_trans {a b c : FVal} (h1 : fcmp a b = some .gt)
    (h2 : fcmp b c = some .gt) : fcmp a c = some .gt := by
  cases a <;> cases b <;> cases c <;> simp_all [fcmp]
  exact compare_gt_iff_gt.mpr
    (lt_trans (compare_gt_iff_gt.mp h2) (compare_gt_iff_gt.mp h1))

end FVal

/-! ## Stable sort with a fallible comparator (src/main.rs line 643)

`scored_matches.sort_by(|a, b| b.score.partial_cmp(&a.score).unwrap())` is a
stable sort whose comparator panics when `partial_cmp` returns `None`.  It
is modelled by a stable insertion sort over the `Option` monad: a `none`
comparison aborts the whole sort (the panic).  Whenever every comparison
that could be made is defined (which is what the theorems establish), every
stable sort — in particular the one used by Rust — produces the same,
unique stable ordering, so the model is observationally faithful. -/

def insertM {α : Type} (cmp : α → α → Option Ordering) (x : α) :
    List α → Option (List α)
  | [] => some [x]
  | y :: ys =>
    match cmp x y with
    | none => none
    | some .gt => (insertM cmp x ys).map (y :: ·)
    | some _ => some (x :: y :: ys)

def sortByM {α : Type} (cmp : α → α → Option Ordering) :
    List α → Option (List α)
  | [] => some []
  | x :: xs => (sortByM cmp xs).bind (insertM cmp x)

/-- Comparator of src/main.rs line 643: descending by score, a `none`
result of `partial_cmp` modelling the `unwrap` panic. -/
def cmpDesc (a b : Nat × FVal) : Option Ordering := FVal.fcmp b.2 a.2

/-- Ordering the ranked result list is proved to satisfy: strictly
descending scores, ties resolved by ascending original index. -/
def rankedBefore (x y : Nat × FVal) : Prop :=
  FVal.fcmp x.2 y.2 = some .gt ∨ (x.2 = y.2 ∧ x.1 < y.1)

theorem insertM_cmpDesc (x : Nat × FVal) :
    ∀ (l : List (Nat × FVal)),
      x.2 ≠ .nan → (∀ y ∈ l, y.2 ≠ .nan) → (∀ y ∈ l, x.1 < y.1) →
      l.Pairwise rankedBefore →
      ∃ r, insertM cmpDesc x l = some r ∧ r.Perm (x :: l) ∧
        r.Pairwise rankedBefore := by
  intro l
  induction l with
  | nil =>
    intro hx hl hidx hp
    exact ⟨[x], rfl, List.Perm.refl _, by simp⟩
  | cons y ys ih =>
    intro hx hl hidx hp
    have hy : y.2 ≠ .nan := hl y (by simp)
    have hsome := FVal.fcmp_isSome_of_not_nan hy hx
    rw [Option.isSome_iff_exists] at hsome
    obtain ⟨o, ho⟩ := hsome
    have hcd : cmpDesc x y = some o := ho
    cases o with
    | gt =>
      obtain ⟨r', hr', hperm', hpair'⟩ :=
        ih hx (fun z hz => hl z (by simp [hz]))
          (fun z hz => hidx z (by simp [hz])) hp.of_cons
      refine ⟨y :: r', ?_, ?_, ?_⟩
      · rw [insertM, hcd, hr']
        rfl
      · exact (hperm'.cons y).trans (List.Perm.swap x y ys)
      · refine List.Pairwise.cons ?_ hpair'
        intro z hz
        have hz2 := (hperm'.mem_iff).mp hz
        rcases List.mem_cons.mp hz2 with rfl | hz3
        · exact Or.inl ho
        · exact (List.pairwise_cons.mp hp).1 z hz3
    | lt =>
      refine ⟨x :: y :: ys, by rw [insertM, hcd], List.Perm.refl _, ?_⟩
      have hxy : FVal.fcmp x.2 y.2 = some .gt := FVal.fcmp_lt_symm ho
      refine List.Pairwise.cons ?_ hp
      intro z hz
      rcases List.mem_cons.mp hz with rfl | hz2
      · exact Or.inl hxy
      · have hyz := (List.pairwise_cons.mp hp).1 z hz2
        rcases hyz with hgt | ⟨heq, _⟩
        · exact Or.inl (FVal.fcmp_gt_trans hxy hgt)
        · exact Or.inl (heq ▸ hxy)
    | eq =>
      have hyx := FVal.fcmp_eq_eq hy hcd
      refine ⟨x :: y :: ys, by rw [insertM, hcd], List.Perm.refl _, ?_⟩
      refine List.Pairwise.cons ?_ hp
      intro z hz
      rcases List.mem_cons.mp hz with rfl | hz2
      · exact Or.inr ⟨hyx.symm, hidx z (by simp)⟩
      · have hyz := (List.pairwise_cons.mp hp).1 z hz2
        rcases hyz with hgt | ⟨heq, _⟩
        · exact Or.inl (hyx ▸ hgt)
        · exact Or.inr ⟨hyx.symm.trans heq, hidx z (by simp [hz2])⟩

theorem sortByM_cmpDesc :
    ∀ (l : List (Nat × FVal)), (∀ y ∈ l, y.2 ≠ .nan) →
      l.Pairwise (fun a b => a.1 < b.1) →
      ∃ r, sortByM cmpDesc l = some r ∧ r.Perm l ∧ r.Pairwise rankedBefore := by
  intro l
  induction l with
  | nil => intro h hp; exact ⟨[], rfl, List.Perm.refl _, by simp⟩
  | cons x xs ih =>
    intro h hp
    obtain ⟨r', hr', hperm', hpair'⟩ :=
      ih (fun z hz => h z (by simp [hz])) hp.of_cons
    obtain ⟨r, hr, hperm, hpair⟩ := insertM_cmpDesc x r'
      (h x (by simp))
      (fun z hz => h z (by simp [hperm'.mem_iff.mp hz]))
      (fun z hz => (List.pairwise_cons.mp hp).1 z (hperm'.mem_iff.mp hz))
      hpair'
    refine ⟨r, ?_, ?_, hpair⟩
    · rw [sortByM, hr']
      exact hr
    · exact hperm.trans (hperm'.cons x)

/-! ## BM25 scorer (src/bm25.rs)

`HashMap<String, usize>` is modelled by an association list over tokens;
`entry(k).or_insert(0) += 1` by `alBump`, lookup by `alLookup`, and the
`seen` de-duplication map by a plain list of keys.  `f64::ln` is an abstract
parameter `lnf` of `score`; the theorems assume of it only `lnf 1 = 0`,
which is exact in IEEE 754. -/

/-- Association-list lookup (model of `HashMap::get`). -/
def alLookup (k : List Char) : List (List Char × Nat) → Option Nat
  | [] => none
  | (k2, v) :: rest => if k2 = k then some v else alLookup k rest

/-- Model of `*map.entry(k).or_insert(0) += 1`. -/
def alBump (k : List Char) : List (List Char × Nat) → List (List Char × Nat)
  | [] => [(k, 1)]
  | (k2, v) :: rest =>
    if k2 = k then (k2, v + 1) :: rest else (k2, v) :: alBump k rest

/-- Inner loop of `BM25::new`: walk one document's tokens, bumping the
document frequency of each token not already in `seen` (the source tests
`seen.insert(token, true).is_none()`). -/
def processTokens : List (List Char) → List (List Char) → List (List Char × Nat) →
    List (List Char) × List (List Char × Nat)
  | [], seen, dfs => (seen, dfs)
  | t :: ts, seen, dfs =>
    if t ∈ seen then processTokens ts seen dfs
    else processTokens ts (t :: seen) (alBump t dfs)

/-- Model of the `BM25` struct of src/bm25.rs.  The average document length
is stored exactly (the source stores the IEEE quotient; none of the
verified properties depends on the rounding of that quotient). -/
structure BM25 where
  avg_doc_length : ℚ
  doc_count : Nat
  doc_frequencies : List (List Char × Nat)
  k1 : ℚ
  b : ℚ

/-- Loop body of `BM25::new`: one document's contribution to the running
total length and document-frequency map. -/
def bm25Step (acc : Nat × List (List Char × Nat)) (doc : List Char) :
    Nat × List (List Char × Nat) :=
  let tokens := tokenize doc
  (acc.1 + tokens.length, (processTokens tokens [] acc.2).2)

/-- Model of `BM25::new` (src/bm25.rs lines 19-52). -/
def BM25.new (documents : List (List Char)) (k1 b : ℚ) : BM25 :=
  let doc_count := documents.length
  let acc := documents.foldl bm25Step (0, [])
  let total_length := acc.1
  let doc_frequencies := acc.2
  let avg_doc_length :=
    if doc_count > 0 then (total_length : ℚ) / (doc_count : ℚ) else 0
  ⟨avg_doc_length, doc_count, doc_frequencies, k1, b⟩

/-- Term-frequency table of one document (`BM25::score` lines 61-64). -/
def termFreqs (doc_terms : List (List Char)) : List (List Char × Nat) :=
  doc_terms.foldl (fun m t => alBump t m) []

/-- Model of `BM25::score` (src/bm25.rs lines 55-85).  `lnf` abstracts
`f64::ln`. -/
def BM25.score (m : BM25) (lnf : FVal → FVal) (query document : List Char) : FVal :=
  let query_terms := tokenize query
  let doc_terms := tokenize document
  let doc_length : ℚ := doc_terms.length
  let term_freqs := termFreqs doc_terms
  query_terms.foldl
    (fun s query_term =>
      match alLookup query_term term_freqs with
      | none => s
      | some tfn =>
        let tf : ℚ := tfn
        let df : ℚ := ((alLookup query_term m.doc_frequencies).getD 0 : Nat)
        let idf := lnf (FVal.fdiv (.fin ((m.doc_count : ℚ) - df + 1/2))
          (.fin (df + 1/2)))
        let normalized_tf := FVal.fdiv (.fin (tf * (m.k1 + 1)))
          (FVal.fadd (.fin tf)
            (FVal.fmul (.fin m.k1)
              (FVal.fadd (.fin (1 - m.b))
                (FVal.fmul (.fin m.b)
                  (FVal.fdiv (.fin doc_length) (.fin m.avg_doc_length))))))
        FVal.fadd s (FVal.fmul idf normalized_tf))
    (.fin 0)

/-! ## Search pipeline (src/main.rs, `search_in_session` lines 617-645)

The model takes the per-event search documents as input (their assembly
from parsed events, and the presentation fields of `SearchMatch`, are
outside the scored pipeline) and returns `(original index, score)` pairs.
The BM25 parameters are the source's literals `1.2` and `0.75`; their
binary64 rounding is immaterial to every property proved about them. -/

def search_in_session (lnf : FVal → FVal) (query : List Char)
    (documents : List (List Char)) : Option (List (Nat × FVal)) :=
  let bm25 := BM25.new documents (6/5) (3/4)
  let scored_matches := documents.enum.foldl
    (fun acc p =>
      let score := bm25.score lnf query p.2
      if FVal.fgt score (.fin 0) then acc ++ [(p.1, score)] else acc)
    []
  sortByM cmpDesc scored_matches

/-! ### BM25 index lemmas -/

theorem alLookup_alBump_self (k : List Char) :
    ∀ m, alLookup k (alBump k m) = some ((alLookup k m).getD 0 + 1) := by
  intro m
  induction m with
  | nil => simp [alBump, alLookup]
  | cons kv rest ih =>
    obtain ⟨k2, v⟩ := kv
    by_cases h : k2 = k
    · subst h
      simp [alBump, alLookup]
    · simp [alBump, alLookup, h, ih]

theorem alLookup_alBump_other (k t : List Char) (h : t ≠ k) :
    ∀ m, alLookup t (alBump k m) = alLookup t m := by
  intro m
  induction m with
  | nil =>
    simp only [alBump, alLookup]
    rw [if_neg (fun hh => h hh.symm)]
  | cons kv rest ih =>
    obtain ⟨k2, v⟩ := kv
    by_cases h2 : k2 = k
    · subst h2
      simp only [alBump, if_pos rfl, alLookup]
      rw [if_neg (fun hh => h hh.symm), if_neg (fun hh => h hh.symm)]
    · simp only [alBump, if_neg h2, alLookup]
      by_cases h3 : k2 = t
      · rw [if_pos h3, if_pos h3]
      · rw [if_neg h3, if_neg h3, ih]

theorem processTokens_lookup :
    ∀ (toks : List (List Char)) (seen : List (List Char))
      (dfs : List (List Char × Nat)) (t : List Char),
      alLookup t (processTokens toks seen dfs).2 =
        if t ∈ seen then alLookup t dfs
        else if t ∈ toks then some ((alLookup t dfs).getD 0 + 1)
        else alLookup t dfs := by
  intro toks
  induction toks with
  | nil =>
    intro seen dfs t
    by_cases h : t ∈ seen <;> simp [processTokens, h]
  | cons u ts ih =>
    intro seen dfs t
    by_cases hu : u ∈ seen
    · rw [processTokens, if_pos hu, ih]
      by_cases hts : t ∈ seen
      · simp [hts]
      · by_cases htu : t = u
        · subst htu
          exact absurd hu hts
        · simp [hts, htu]
    · rw [processTokens, if_neg hu, ih]
      by_cases htu : t = u
      · subst htu
        rw [if_pos (List.mem_cons_self t seen), if_neg hu,
          if_pos (List.mem_cons_self t ts), alLookup_alBump_self]
      · have hmem : (t ∈ u :: seen) ↔ (t ∈ seen) := by simp [htu]
        have hmem2 : (t ∈ u :: ts) ↔ (t ∈ ts) := by simp [htu]
        rw [alLookup_alBump_other u t htu dfs]
        by_cases hts : t ∈ seen
        · rw [if_pos (hmem.mpr hts), if_pos hts]
        · rw [if_neg (fun hh => hts (hmem.mp hh)), if_neg hts]
          by_cases htts : t ∈ ts
          · rw [if_pos htts, if_pos (hmem2.mpr htts)]
          · rw [if_neg htts, if_neg (fun hh => htts (hmem2.mp hh))]

theorem processTokens_bounds {k : Nat} {dfs : List (List Char × Nat)}
    (hinv : ∀ t n, alLookup t dfs = some n → 1 ≤ n ∧ n ≤ k)
    (toks : List (List Char)) :
    ∀ t n, alLookup t (processTokens toks [] dfs).2 = some n →
      1 ≤ n ∧ n ≤ k + 1 := by
  intro t n h
  rw [processTokens_lookup toks [] dfs t] at h
  rw [if_neg (by simp)] at h
  by_cases ht : t ∈ toks
  · rw [if_pos ht] at h
    cases hprev : alLookup t dfs with
    | none =>
      rw [hprev] at h
      simp at h
      omega
    | some m =>
      rw [hprev] at h
      simp at h
      have := hinv t m hprev
      omega
  · rw [if_neg ht] at h
    have := hinv t n h
    omega

theorem foldl_bm25Step_bounds :
    ∀ (docs : List (List Char)) (acc : Nat × List (List Char × Nat)) (k : Nat),
      (∀ t n, alLookup t acc.2 = some n → 1 ≤ n ∧ n ≤ k) →
      ∀ t n, alLookup t (docs.foldl bm25Step acc).2 = some n →
        1 ≤ n ∧ n ≤ k + docs.length := by
  intro docs
  induction docs with
  | nil =>
    intro acc k hinv t n h
    simp only [List.foldl_nil] at h
    have := hinv t n h
    omega
  | cons d ds ih =>
    intro acc k hinv t n h
    simp only [List.foldl_cons] at h
    have hstep : ∀ t n, alLookup t (bm25Step acc d).2 = some n →
        1 ≤ n ∧ n ≤ k + 1 :=
      processTokens_bounds hinv (tokenize d)
    have := ih (bm25Step acc d) (k + 1) hstep t n h
    simp only [List.length_cons]
    omega

theorem foldl_bm25Step_total :
    ∀ (docs : List (List Char)) (acc : Nat × List (List Char × Nat)),
      (docs.foldl bm25Step acc).1
        = acc.1 + (docs.map (fun d => (tokenize d).length)).sum := by
  intro docs
  induction docs with
  | nil => intro acc; simp
  | cons d ds ih =>
    intro acc
    simp only [List.foldl_cons, List.map_cons, List.sum_cons]
    rw [ih (bm25Step acc d)]
    simp [bm25Step]
    omega

/-- C10: in every index built by `BM25::new`, each term present in the
document-frequency map has frequency between 1 and the document count, and
the average document length is 0 for an empty corpus and the total token
count divided by the document count otherwise. -/
theorem bm25_new_invariants (documents : List (List Char)) (k1 b : ℚ) :
    (∀ t n, alLookup t (BM25.new documents k1 b).doc_frequencies = some n →
      1 ≤ n ∧ n ≤ documents.length) ∧
    (BM25.new documents k1 b).avg_doc_length =
      (if documents.length = 0 then 0
       else ((documents.map (fun d => (tokenize d).length)).sum : ℚ)
         / (documents.length : ℚ)) := by
  constructor
  · intro t n h
    have := foldl_bm25Step_bounds documents (0, []) 0
      (by intro t2 n2 h2; simp [alLookup] at h2) t n h
    omega
  · show (if documents.length > 0
        then ((documents.foldl bm25Step (0, [])).1 : ℚ) / (documents.length : ℚ)
        else 0) = _
    rw [foldl_bm25Step_total documents (0, [])]
    by_cases h : documents.length = 0
    · rw [if_neg (by omega), if_pos h]
    · rw [if_pos (by omega), if_neg h]
      simp

/-! ### Scoring an empty corpus (claim C3) -/

theorem foldl_fixed {α β : Type} {f : β → α → β} {c : β}
    (h : ∀ a, f c a = c) : ∀ l : List α, List.foldl f c l = c := by
  intro l
  induction l with
  | nil => rfl
  | cons a as ih => rw [List.foldl_cons, h a, ih]

theorem termFreqs_lookup_ne_nil {dts : List (List Char)} {t : List Char}
    {n : Nat} (h : alLookup t (termFreqs dts) = some n) : dts ≠ [] := by
  intro hd
  subst hd
  simp [termFreqs, alLookup] at h

/-- C3: scoring against an index built over an empty corpus returns exactly
0 for every query and every document — the division `docLen / 0` produces
`+inf`, the term-frequency component collapses to `+0`, and the idf factor
is `ln 1 = 0` exactly — so no `nan` and no division error is produced.  The
hypotheses pin the standard positive parameters (the source passes 1.2 and
0.75) and the single exact fact `ln 1 = 0` used of `f64::ln`. -/
theorem bm25_score_empty_corpus (k1 b : ℚ) (hk1 : 0 < k1) (hb : 0 < b)
    (lnf : FVal → FVal) (hln : lnf (.fin 1) = .fin 0)
    (query document : List Char) :
    (BM25.new [] k1 b).score lnf query document = .fin 0 := by
  have hnew : BM25.new [] k1 b = ⟨0, 0, [], k1, b⟩ := rfl
  rw [hnew]
  simp only [BM25.score]
  apply foldl_fixed
  intro qt
  cases hlk : alLookup qt (termFreqs (tokenize document)) with
  | none => rfl
  | some tfn =>
    have hne := termFreqs_lookup_ne_nil hlk
    have hlen : (0 : ℚ) < ((tokenize document).length : ℚ) := by
      have : 0 < (tokenize document).length := List.length_pos.mpr hne
      exact_mod_cast this
    simp only [hlk]
    have hdf : alLookup qt ([] : List (List Char × Nat)) = none := rfl
    rw [hdf]
    have hidfarg : FVal.fdiv (.fin (((0 : Nat) : ℚ) - ((Option.getD none 0 : Nat) : ℚ) + 1/2))
        (.fin (((Option.getD none 0 : Nat) : ℚ) + 1/2)) = .fin 1 := by
      simp [FVal.fdiv]
    have hinner : FVal.fdiv (.fin ((tokenize document).length : ℚ)) (.fin 0)
        = .inf := by
      simp only [FVal.fdiv, if_true]
      rw [if_neg (ne_of_gt hlen), if_pos hlen]
    rw [hinner]
    have hmb : FVal.fmul (.fin b) .inf = .inf := by
      simp only [FVal.fmul]
      rw [if_pos hb]
    rw [hmb]
    have hab : FVal.fadd (.fin (1 - b)) .inf = .inf := rfl
    rw [hab]
    have hmk : FVal.fmul (.fin k1) .inf = .inf := by
      simp only [FVal.fmul]
      rw [if_pos hk1]
    rw [hmk]
    have hat : FVal.fadd (.fin (tfn : ℚ)) .inf = .inf := rfl
    rw [hat]
    have hdt : FVal.fdiv (.fin ((tfn : ℚ) * (k1 + 1))) .inf = .fin 0 := rfl
    rw [hdt]
    rw [hidfarg, hln]
    show FVal.fadd (.fin 0) (FVal.fmul (.fin 0) (.fin 0)) = .fin 0
    simp [FVal.fmul, FVal.fadd]

/-- Concrete logarithm model for the C3 witness: agrees with `f64::ln` at
the only point the theorem needs, `ln 1 = 0`. -/
def lnfSample : FVal → FVal := fun x => if x = .fin 1 then .fin 0 else .nan

/-- C3 witness: the empty-corpus theorem applied at the source's parameters
1.2 and 0.75, the concrete ln model, and a concrete query and document. -/
theorem bm25_score_empty_corpus_witness :
    (0 : ℚ) < 6/5 ∧ (0 : ℚ) < 3/4 ∧ lnfSample (.fin 1) = .fin 0 ∧
      (BM25.new [] (6/5) (3/4)).score lnfSample
        (String.toList "brown fox") (String.toList "the brown fox")
        = .fin 0 :=
  ⟨by norm_num, by norm_num, by decide,
    bm25_score_empty_corpus (6/5) (3/4) (by norm_num) (by norm_num)
      lnfSample (by decide) (String.toList "brown fox")
      (String.toList "the brown fox")⟩

/-! ### Ranking (claim C2) -/

theorem foldl_if_append {α β : Type} (cond : α → Bool) (g : α → β) :
    ∀ (l : List α) (acc : List β),
      l.foldl (fun acc2 p => if cond p then acc2 ++ [g p] else acc2) acc
        = acc ++ l.filterMap (fun p => if cond p then some (g p) else none) := by
  intro l
  induction l with
  | nil => intro acc; simp
  | cons x xs ih =>
    intro acc
    simp only [List.foldl_cons, List.filterMap_cons]
    by_cases h : cond x = true
    · rw [if_pos h, if_pos h, ih]
      simp
    · rw [if_neg h, if_neg h, ih]

theorem le_fst_of_mem_enumFrom {α : Type} :
    ∀ (l : List α) (n : Nat) (p : Nat × α), p ∈ List.enumFrom n l → n ≤ p.1 := by
  intro l
  induction l with
  | nil => intro n p h; simp at h
  | cons x xs ih =>
    intro n p h
    rcases List.mem_cons.mp h with rfl | h2
    · exact le_refl n
    · have := ih (n + 1) p h2
      omega

theorem pairwise_fst_lt_enumFrom {α : Type} :
    ∀ (l : List α) (n : Nat),
      (List.enumFrom n l).Pairwise (fun a b : Nat × α => a.1 < b.1) := by
  intro l
  induction l with
  | nil => intro n; simp
  | cons x xs ih =>
    intro n
    refine List.Pairwise.cons ?_ (ih (n + 1))
    intro p hp
    have := le_fst_of_mem_enumFrom xs (n + 1) p hp
    omega

/-- C2: for every query and document sequence, the scoring step keeps
exactly the documents whose BM25 score is strictly positive, the comparator
based sort never fails (the pipeline returns `some`), and the result is
sorted strictly descending by score with ties in original document order. -/
theorem search_in_session_ranking (lnf : FVal → FVal) (query : List Char)
    (documents : List (List Char)) :
    ∃ r, search_in_session lnf query documents = some r ∧
      r.Perm (documents.enum.filterMap (fun p =>
        if FVal.fgt ((BM25.new documents (6/5) (3/4)).score lnf query p.2)
            (.fin 0)
        then some (p.1, (BM25.new documents (6/5) (3/4)).score lnf query p.2)
        else none)) ∧
      r.Pairwise rankedBefore := by
  have hfold := foldl_if_append
    (fun p : Nat × List Char =>
      FVal.fgt ((BM25.new documents (6/5) (3/4)).score lnf query p.2) (.fin 0))
    (fun p : Nat × List Char =>
      (p.1, (BM25.new documents (6/5) (3/4)).score lnf query p.2))
    documents.enum []
  simp only [List.nil_append] at hfold
  have hnan : ∀ y ∈ documents.enum.filterMap (fun p =>
      if FVal.fgt ((BM25.new documents (6/5) (3/4)).score lnf query p.2)
          (.fin 0)
      then some (p.1, (BM25.new documents (6/5) (3/4)).score lnf query p.2)
      else none), y.2 ≠ FVal.nan := by
    intro y hy
    rcases List.mem_filterMap.mp hy with ⟨p, hp, hsome⟩
    by_cases hc : FVal.fgt ((BM25.new documents (6/5) (3/4)).score lnf query p.2)
        (.fin 0) = true
    · rw [if_pos hc] at hsome
      have hy2 : y.2 = (BM25.new documents (6/5) (3/4)).score lnf query p.2 := by
        cases hsome
        rfl
      rw [hy2]
      exact FVal.not_nan_of_fgt_zero hc
    · rw [if_neg hc] at hsome
      exact absurd hsome (by simp)
  have hpw : (documents.enum.filterMap (fun p =>
      if FVal.fgt ((BM25.new documents (6/5) (3/4)).score lnf query p.2)
          (.fin 0)
      then some (p.1, (BM25.new documents (6/5) (3/4)).score lnf query p.2)
      else none)).Pairwise (fun a b => a.1 < b.1) := by
    refine List.Pairwise.filterMap _ ?_ (pairwise_fst_lt_enumFrom documents 0)
    intro p q hpq c hc d hd
    simp only [Option.mem_def] at hc hd
    by_cases hcp : FVal.fgt ((BM25.new documents (6/5) (3/4)).score lnf query p.2)
        (.fin 0) = true
    · rw [if_pos hcp] at hc
      by_cases hcq : FVal.fgt ((BM25.new documents (6/5) (3/4)).score lnf query q.2)
          (.fin 0) = true
      · rw [if_pos hcq] at hd
        cases hc
        cases hd
        exact hpq
      · rw [if_neg hcq] at hd
        exact absurd hd (by simp)
    · rw [if_neg hcp] at hc
      exact absurd hc (by simp)
  obtain ⟨r, hr, hperm, hpair⟩ := sortByM_cmpDesc _ hnan hpw
  refine ⟨r, ?_, hperm, hpair⟩
  simp only [search_in_session]
  rw [hfold]
  exact hr

/-! ## Event decoding and normalization (src/parser_v2.rs)

The serde data model is embedded structurally: `serde_json::Value` as
`Json`, `jiff::Timestamp` as `Int` (an opaque instant, only copied
through), integer counters as `Nat`/`Int`.  `serde_json::from_str` is an
abstract total function parameter where needed — the verified properties do
not depend on which strings decode to which entries. -/

inductive Json where
  | null : Json
  | bool : Bool → Json
  | num : ℚ → Json
  | str : String → Json
  | arr : List Json → Json
  | obj : List (String × Json) → Json

/-- Shared metadata fields of non-summary records (`EventMetadata`). -/
structure EventMetadata where
  uuid : String
  parent_uuid : Option String
  session_id : String
  timestamp : Int
  cwd : String
  git_branch : Option String
  user_type : Option String
  version : Option String
  request_id : Option String
  is_sidechain : Option Bool
  is_meta : Option Bool

structure ImageSource where
  source_type : String
  media_type : String
  data : String

inductive UserContentBlock where
  | text : String → UserContentBlock
  | image : ImageSource → UserContentBlock
  | toolResult : (tool_use_id : String) → (content : String) →
      (is_error : Option Bool) → UserContentBlock

/-- Untagged union for the user `content` field (`UserContent`). -/
inductive UserContent where
  | text : String → UserContent
  | blocks : List UserContentBlock → UserContent

structure UserMessage where
  role : String
  content : UserContent

inductive AssistantContentBlock where
  | text : String → AssistantContentBlock
  | thinking : (thinking : String) → (signature : String) → AssistantContentBlock
  | toolUse : (id : String) → (name : String) → (input : Json) →
      AssistantContentBlock

structure TokenUsage where
  input_tokens : Nat
  output_tokens : Nat
  cache_creation_input_tokens : Option Nat
  cache_read_input_tokens : Option Nat
  service_tier : Option String

structure AssistantMessage where
  id : String
  msg_type : String
  role : String
  model : String
  content : List AssistantContentBlock
  usage : Option TokenUsage
  stop_reason : Option String
  stop_sequence : Option String

structure FileResult where
  content : Option String
  file_path : Option String
  num_lines : Option Nat
  file_type : Option String

structure EditResult where
  old_string : String
  new_string : String
  replace_all : Option Bool

structure Todo where
  id : String
  content : String
  status : String
  priority : String

structure ToolUseResult where
  result_type : Option String
  content : Option String
  stdout : Option String
  stderr : Option String
  code : Option Int
  duration_ms : Option Nat
  interrupted : Option Bool
  truncated : Option Bool
  file : Option FileResult
  file_path : Option String
  edits : Option (List EditResult)
  query : Option String
  results : Option (List Json)
  new_todos : Option (List Todo)
  old_todos : Option (List Todo)

structure UserEvent where
  metadata : EventMetadata
  message : UserMessage
  tool_use_result : Option ToolUseResult
  is_compact_summary : Option Bool

structure AssistantEvent where
  metadata : EventMetadata
  message : AssistantMessage
  is_api_error_message : Option Bool

/-- Top-level tagged union for one JSONL entry (`SessionEntry`). -/
inductive SessionEntry where
  | summary : (summary : String) → (leaf_uuid : Option String) →
      (timestamp : Option Int) → SessionEntry
  | user : UserEvent → SessionEntry
  | assistant : AssistantEvent → SessionEntry
  | system : (content : String) → (level : Option String) →
      (metadata : EventMetadata) → SessionEntry

structure ToolInfo where
  name : String
  id : String
  input : Json

/-- Normalized event for display (`DisplayEvent`). -/
structure DisplayEvent where
  timestamp : Int
  role : String
  content : String
  tool_info : Option ToolInfo
  thinking : Option String
  usage : Option TokenUsage
  model : Option String

/-- Model of `convert_to_display_event` (src/parser_v2.rs lines 258-337).
The assistant branch folds over the content blocks with the source's
mutable `content`/`tool_info`/`thinking` accumulation. -/
def convert_to_display_event : SessionEntry → Option DisplayEvent
  | .user event =>
    let content :=
      match event.message.content with
      | .text text => text
      | .blocks blocks =>
        String.intercalate "\n" (blocks.filterMap (fun block =>
          match block with
          | .text text => some text
          | .toolResult _ content _ => some content
          | .image _ => none))
    some ⟨event.metadata.timestamp, "user", content, none, none, none, none⟩
  | .assistant event =>
    let acc := event.message.content.foldl
      (fun (acc : String × Option ToolInfo × Option String) block =>
        match block with
        | .text text =>
          (if acc.1.isEmpty then text else acc.1 ++ "\n" ++ text,
            acc.2.1, acc.2.2)
        | .thinking t _signature => (acc.1, acc.2.1, some t)
        | .toolUse id name input => (acc.1, some ⟨name, id, input⟩, acc.2.2))
      ("", none, none)
    some ⟨event.metadata.timestamp, "assistant", acc.1, acc.2.1, acc.2.2,
      event.message.usage, some event.message.model⟩
  | .system content level metadata =>
    some ⟨metadata.timestamp, "system:" ++ level.getD "info", content,
      none, none, none, none⟩
  | .summary _ _ _ => none

/-- Thinking texts of a block list, in block order (specification side). -/
def thinkingTexts (blocks : List AssistantContentBlock) : List String :=
  blocks.filterMap (fun block =>
    match block with
    | .thinking t _ => some t
    | _ => none)

/-- User-visible texts of a user block list, in block order (specification
side, written as direct recursion). -/
def userBlockTexts : List UserContentBlock → List String
  | [] => []
  | .text t :: blocks => t :: userBlockTexts blocks
  | .toolResult _ c _ :: blocks => c :: userBlockTexts blocks
  | .image _ :: blocks => userBlockTexts blocks

/-! ### Normalization lemmas and claims C1, C8 -/

theorem getLast?_cons_of_ne_nil {α : Type} (a : α) {l : List α} (h : l ≠ []) :
    (a :: l).getLast? = l.getLast? := by
  cases l with
  | nil => exact absurd rfl h
  | cons b bs => rw [List.getLast?_cons_cons]

theorem assistant_fold_thinking :
    ∀ (blocks : List AssistantContentBlock)
      (acc : String × Option ToolInfo × Option String),
      (blocks.foldl
        (fun (acc : String × Option ToolInfo × Option String) block =>
          match block with
          | .text text =>
            (if acc.1.isEmpty then text else acc.1 ++ "\n" ++ text,
              acc.2.1, acc.2.2)
          | .thinking t _signature => (acc.1, acc.2.1, some t)
          | .toolUse id name input => (acc.1, some ⟨name, id, input⟩, acc.2.2))
        acc).2.2 =
      (if thinkingTexts blocks = [] then acc.2.2
       else (thinkingTexts blocks).getLast?) := by
  intro blocks
  induction blocks with
  | nil => intro acc; simp [thinkingTexts]
  | cons b bs ih =>
    intro acc
    cases b with
    | text t =>
      rw [List.foldl_cons]
      rw [ih]
      have hT : thinkingTexts (.text t :: bs) = thinkingTexts bs := by
        simp [thinkingTexts]
      rw [hT]
    | thinking t sig =>
      rw [List.foldl_cons]
      rw [ih (acc.1, acc.2.1, some t)]
      have hT : thinkingTexts (.thinking t sig :: bs) = t :: thinkingTexts bs := by
        simp [thinkingTexts]
      rw [hT]
      by_cases h : thinkingTexts bs = []
      · rw [if_pos h, if_neg (by simp), h]
        rfl
      · rw [if_neg h, if_neg (by simp)]
        rw [getLast?_cons_of_ne_nil t h]
    | toolUse id name input =>
      rw [List.foldl_cons]
      rw [ih (acc.1, some ⟨name, id, input⟩, acc.2.2)]
      have hT : thinkingTexts (.toolUse id name input :: bs) = thinkingTexts bs := by
        simp [thinkingTexts]
      rw [hT]

/-- C1 (amended): for every assistant record, normalization sets the
event's thinking field to the text of the LAST Thinking block in block
order (`none` when there is no Thinking block) — each Thinking block
overwrites the previous one in the source loop. -/
theorem assistant_thinking_is_last (event : AssistantEvent) :
    ∃ ev, convert_to_display_event (.assistant event) = some ev ∧
      ev.thinking = (thinkingTexts event.message.content).getLast? := by
  refine ⟨_, rfl, ?_⟩
  show (event.message.content.foldl _ ("", none, none)).2.2 = _
  rw [assistant_fold_thinking event.message.content ("", none, none)]
  by_cases h : thinkingTexts event.message.content = []
  · rw [if_pos h, h]
    rfl
  · rw [if_neg h]

/-- Concrete assistant record with two Thinking blocks, used to refute the
first-block reading of the specification. -/
def sampleAssistantTwoThinking : AssistantEvent :=
  ⟨⟨"u1", none, "s1", 0, "/w", none, none, none, none, none, none⟩,
    ⟨"m1", "message", "assistant", "model-x",
      [.thinking "first" "sig1", .thinking "second" "sig2"],
      none, none, none⟩, none⟩

/-- C1 counterexample: on an assistant record whose content blocks are two
Thinking blocks (texts "first" then "second"), normalization stores
"second" — the last block — and not the text of the first Thinking block,
so the claim as stated fails. -/
theorem assistant_thinking_not_first :
    (convert_to_display_event (.assistant sampleAssistantTwoThinking)).bind
        (fun ev => ev.thinking) = some "second" ∧
      ("second" : String) ≠ "first" := by
  constructor
  · rfl
  · decide

theorem filterMap_eq_userBlockTexts :
    ∀ bs : List UserContentBlock,
      bs.filterMap (fun block =>
        match block with
        | .text text => some text
        | .toolResult _ content _ => some content
        | .image _ => none) = userBlockTexts bs := by
  intro bs
  induction bs with
  | nil => rfl
  | cons b bs ih =>
    cases b with
    | text t => simp [List.filterMap_cons, userBlockTexts, ih]
    | image src => simp [List.filterMap_cons, userBlockTexts, ih]
    | toolResult tid c err => simp [List.filterMap_cons, userBlockTexts, ih]

/-- C8: a user record with plain-string content is normalized to that
string verbatim; a user record with a block list is normalized to the
newline-joined texts of its Text blocks and ToolResult contents in block
order, Image blocks contributing nothing. -/
theorem user_content_normalization (event : UserEvent) :
    ∃ ev, convert_to_display_event (.user event) = some ev ∧
      ev.content =
        (match event.message.content with
         | .text s => s
         | .blocks bs => String.intercalate "\n" (userBlockTexts bs)) := by
  refine ⟨_, rfl, ?_⟩
  cases hc : event.message.content with
  | text s => rfl
  | blocks bs =>
    show String.intercalate "\n" (List.filterMap _ bs)
        = String.intercalate "\n" (userBlockTexts bs)
    rw [filterMap_eq_userBlockTexts]

/-! ## File parsing (claim C4)

`parse_session_file` reads a file line by line through `BufRead::lines`,
which splits at the byte 0x0A (content-independent), strips one trailing
carriage return, and decodes each line as UTF-8, yielding an `io::Error`
when the bytes are invalid.  The model takes the raw byte lines as input;
`serde_json::from_str::<SessionEntry>` is an abstract total parameter
`dec` (a Rust parse `Err` is `none`). -/

/-- Strip one trailing carriage return (as `BufRead::lines` does). -/
def stripCR (bytes : List UInt8) : List UInt8 :=
  if bytes.getLast? = some 13 then bytes.dropLast else bytes

/-- Continuation-byte test (second to fourth bytes of a multi-byte UTF-8
sequence). -/
def isCont (b : UInt8) : Bool := 0x80 ≤ b && b ≤ 0xBF

/-- Fuel-indexed UTF-8 decoder implementing the standard validity rules
(no overlong forms, no surrogates, maximum U+10FFFF) — the validation
performed by Rust when reading a line into a `String`. -/
def utf8DecodeGo : Nat → List UInt8 → Option (List Char)
  | _, [] => some []
  | 0, _ :: _ => none
  | fuel + 1, b1 :: rest =>
    if b1 ≤ 0x7F then
      (utf8DecodeGo fuel rest).map (fun cs => Char.ofNat b1.toNat :: cs)
    else if 0xC2 ≤ b1 && b1 ≤ 0xDF then
      match rest with
      | b2 :: rest2 =>
        if isCont b2 then
          (utf8DecodeGo fuel rest2).map (fun cs =>
            Char.ofNat ((b1.toNat - 0xC0) * 0x40 + (b2.toNat - 0x80)) :: cs)
        else none
      | [] => none
    else if 0xE0 ≤ b1 && b1 ≤ 0xEF then
      match rest with
      | b2 :: b3 :: rest3 =>
        if (if b1 = 0xE0 then 0xA0 ≤ b2 && b2 ≤ 0xBF
            else if b1 = 0xED then 0x80 ≤ b2 && b2 ≤ 0x9F
            else isCont b2) && isCont b3 then
          (utf8DecodeGo fuel rest3).map (fun cs =>
            Char.ofNat ((b1.toNat - 0xE0) * 0x1000 + (b2.toNat - 0x80) * 0x40
              + (b3.toNat - 0x80)) :: cs)
        else none
      | _ => none
    else if 0xF0 ≤ b1 && b1 ≤ 0xF4 then
      match rest with
      | b2 :: b3 :: b4 :: rest4 =>
        if (if b1 = 0xF0 then 0x90 ≤ b2 && b2 ≤ 0xBF
            else if b1 = 0xF4 then 0x80 ≤ b2 && b2 ≤ 0x8F
            else isCont b2) && (isCont b3 && isCont b4) then
          (utf8DecodeGo fuel rest4).map (fun cs =>
            Char.ofNat ((b1.toNat - 0xF0) * 0x40000 + (b2.toNat - 0x80) * 0x1000
              + (b3.toNat - 0x80) * 0x40 + (b4.toNat - 0x80)) :: cs)
        else none
      | _ => none
    else none

/-- Decode one raw line as Rust's line reader does: strip a trailing CR,
then validate and decode UTF-8. -/
def decodeLine? (bytes : List UInt8) : Option String :=
  (utf8DecodeGo (stripCR bytes).length (stripCR bytes)).map
    (fun cs => String.mk cs)

/-- Model of `parse_session_file` (src/parser_v2.rs lines 232-256): blank
lines are skipped, JSON parse failures are skipped silently, summary
entries produce no event; a line that is not valid UTF-8 surfaces the
reader's `io::Error`. -/
def parse_session_file (dec : String → Option SessionEntry) :
    List (List UInt8) → Except Unit (List DisplayEvent)
  | [] => .ok []
  | bytes :: rest =>
    match decodeLine? bytes with
    | none => .error ()
    | some line =>
      if line.trim.isEmpty then parse_session_file dec rest
      else
        match dec line with
        | some entry =>
          match convert_to_display_event entry with
          | some event =>
            (parse_session_file dec rest).map (fun evs => event :: evs)
          | none => parse_session_file dec rest
        | none => parse_session_file dec rest

/-- C4 (amended): `parse_session_file` succeeds on every input whose lines
are valid UTF-8, whatever the JSON decoder does on them — malformed JSON
and blank lines are skipped, never failing the file; the only
content-caused failure is a line whose bytes are not valid UTF-8. -/
theorem parse_session_file_ok (dec : String → Option SessionEntry)
    (rawLines : List (List UInt8))
    (h : ∀ l ∈ rawLines, (decodeLine? l).isSome = true) :
    ∃ evs, parse_session_file dec rawLines = .ok evs := by
  induction rawLines with
  | nil => exact ⟨[], rfl⟩
  | cons bytes rest ih =>
    obtain ⟨evs, hevs⟩ := ih (fun l hl => h l (by simp [hl]))
    have hdec := h bytes (by simp)
    rw [Option.isSome_iff_exists] at hdec
    obtain ⟨line, hline⟩ := hdec
    rw [parse_session_file]
    simp only [hline]
    by_cases hblank : line.trim.isEmpty = true
    · rw [if_pos hblank]
      exact ⟨evs, hevs⟩
    · rw [if_neg hblank]
      cases hdl : dec line with
      | none => exact ⟨evs, by simp [hevs]⟩
      | some entry =>
        cases hconv : convert_to_display_event entry with
        | none => exact ⟨evs, by simp [hconv, hevs]⟩
        | some event => exact ⟨event :: evs, by simp [hconv, hevs, Except.map]⟩

/-- C4 counterexample: a file consisting of one readable line whose single
byte 0xFF is not valid UTF-8 makes `parse_session_file` fail — an error
caused by line content, not by the inability to read bytes. -/
theorem parse_session_file_invalid_utf8 :
    parse_session_file (fun _ => none) [[(0xFF : UInt8)]] = .error () := rfl

/-- C4 witness: the parse theorem applied to a decoder rejecting every
line and a concrete one-line ASCII file ("hi"). -/
theorem parse_session_file_ok_witness :
    (∀ l ∈ [[(104 : UInt8), 105]], (decodeLine? l).isSome = true) ∧
      ∃ evs, parse_session_file (fun _ => none) [[(104 : UInt8), 105]]
        = .ok evs :=
  ⟨by decide, parse_session_file_ok (fun _ => none) [[(104 : UInt8), 105]]
    (by decide)⟩

/-! ## Snippet extraction (src/main.rs, `extract_snippet_with_words`,
lines 648-684)

Byte slicing is in the `Option` monad (`none` models a panic); the
boundary-adjustment `while` loops are `snapDownLoop`/`snapUpLoop`. -/

/-- Model of `&text[s..e]`. -/
def byteSlice? (s e : Nat) (text : List Char) : Option (List Char) :=
  (byteDrop? s text).bind (fun suffix => byteTake? (e - s) suffix)

/-- Three ASCII dots, the truncation marker of the source. -/
def dots3 : List Char := ['.', '.', '.']

/-- Model of `extract_snippet_with_words` (src/main.rs lines 648-684). -/
def extract_snippet_with_words (text : List Char)
    (query_words : List (List Char)) (context_chars : Nat) :
    Option (List Char) :=
  let lower_text := text.map Char.toLower
  let best_pos := query_words.foldl
    (fun best word =>
      match substrFind (word.map Char.toLower) lower_text with
      | some pos =>
        match best with
        | none => some pos
        | some b => if pos < b then some pos else some b
      | none => best)
    none
  match best_pos with
  | some pos =>
    let start := snapDownLoop (pos + 1) text (pos - context_chars)
    let stop := snapUpLoop (byteLen text + 1) text
      (min (pos + context_chars) (byteLen text))
    (byteSlice? start stop text).map (fun snippet =>
      dots3 ++ trimChars snippet ++ dots3)
  | none =>
    let stop := snapUpLoop (byteLen text + 1) text
      (min context_chars (byteLen text))
    (byteTake? stop text).map (fun begPart => trimChars begPart ++ dots3)

theorem foldl_fixed_mem {α β : Type} {f : β → α → β} {c : β} :
    ∀ l : List α, (∀ a ∈ l, f c a = c) → List.foldl f c l = c := by
  intro l
  induction l with
  | nil => intro h; rfl
  | cons a as ih =>
    intro h
    rw [List.foldl_cons, h a (by simp)]
    exact ih (fun a2 ha2 => h a2 (by simp [ha2]))

/-- C5 (amended): when no query word occurs case-insensitively in the
document, the snippet is the document's first `context_chars` BYTES —
snapped outward to a codepoint boundary, hence the whole document when it
is at most that many bytes — trimmed of surrounding whitespace, with the
truncation marker appended unconditionally (also when nothing was cut);
the byte slicing involved never panics. -/
theorem extract_snippet_no_match (text : List Char)
    (query_words : List (List Char)) (context_chars : Nat)
    (h : ∀ w ∈ query_words,
      substrFind (w.map Char.toLower) (text.map Char.toLower) = none) :
    extract_snippet_with_words text query_words context_chars
      = some (trimChars (byteTakeUp context_chars text) ++ dots3) := by
  have hbest : query_words.foldl
      (fun best word =>
        match substrFind (word.map Char.toLower) (text.map Char.toLower) with
        | some pos =>
          match best with
          | none => some pos
          | some b => if pos < b then some pos else some b
        | none => best)
      none = none := by
    apply foldl_fixed_mem
    intro w hw
    rw [h w hw]
  simp only [extract_snippet_with_words]
  rw [hbest]
  show (byteTake? (snapUpLoop (byteLen text + 1) text
      (min context_chars (byteLen text))) text).map
      (fun begPart => trimChars begPart ++ dots3) = _
  have htake := snapUpLoop_take text (byteLen text + 1)
    (min context_chars (byteLen text)) (by omega) (by omega)
  rw [htake, byteTakeUp_min_byteLen]
  rfl

/-- C5 counterexample: with a context window of N = 3, a 5-character
document in which no query word occurs yields its first 3 bytes plus an
unconditional truncation marker — not the first 2N = 6 characters, which
would here be the whole 5-character document with no marker. -/
theorem extract_snippet_counterexample :
    extract_snippet_with_words (List.replicate 5 'a') [['z', 'z', 'z']] 3
        = some (List.replicate 3 'a' ++ dots3) ∧
      List.replicate 3 'a' ++ dots3 ≠ List.replicate 5 'a' := by
  constructor
  · decide
  · decide

/-- C5 witness: the no-occurrence theorem applied at a concrete document
and query-word list. -/
theorem extract_snippet_no_match_witness :
    (∀ w ∈ [['z', 'z', 'z']],
      substrFind (w.map Char.toLower)
        ((String.toList "hello world").map Char.toLower) = none) ∧
    extract_snippet_with_words (String.toList "hello world")
        [['z', 'z', 'z']] 100
      = some (trimChars (byteTakeUp 100 (String.toList "hello world"))
          ++ dots3) :=
  ⟨by decide, extract_snippet_no_match (String.toList "hello world")
    [['z', 'z', 'z']] 100 (by decide)⟩

/-! ## Highlighting (src/main.rs, `highlight_match` lines 714-778)

Only the occurrence-collection loop (lines 724-763) carries the verified
claims; the later pass (lines 765-777) merely wraps the collected ranges in
color markup from the highest offset down.  `scanWord` models the inner
`while let Some(rel_pos) = lower_text[search_pos..].find(word)` loop for
one query word; its boolean result records whether that suffix slice would
have panicked on a mid-character `search_pos` (the ranges accepted before
that point are returned either way).  The fuel `byteLen lower + 1`
dominates the loop's iteration count, `search_pos` growing by at least one
byte per iteration. -/

/-- Single-character expansion of Rust `str::to_lowercase`, restricted to
the ranges exercised in this development: the ASCII case mapping plus the
length-changing special case U+0130 (İ lowercases to "i" followed by the
combining dot U+0307, growing from 2 to 3 UTF-8 bytes) — the character
used here to exhibit that Rust's lowercasing does not preserve byte
offsets; the remaining characters in scope are unchanged, as in Rust. -/
def rustToLowerChar (c : Char) : List Char :=
  if c = 'İ' then ['i', '\u0307'] else [c.toLower]

/-- Model of Rust `str::to_lowercase` as used by the highlighter, where
its byte-length behaviour is observable. -/
def rustToLowercase (s : List Char) : List Char :=
  (s.map rustToLowerChar).flatten

/-- Model of Rust `char::is_alphanumeric` (the Unicode classes Alphabetic
and N), restricted to the ranges exercised here — ASCII alphanumerics,
Latin-1 letters, CJK unified ideographs — on which it coincides with the
Unicode property (in particular the combining mark U+0307 is not
alphanumeric, in Rust as here). -/
def rustIsAlphanumeric (c : Char) : Bool :=
  (0x30 ≤ c.toNat && c.toNat ≤ 0x39) ||
    (0x41 ≤ c.toNat && c.toNat ≤ 0x5A) ||
    (0x61 ≤ c.toNat && c.toNat ≤ 0x7A) ||
    (0xC0 ≤ c.toNat && c.toNat ≤ 0xFF && !(c.toNat == 0xD7)
      && !(c.toNat == 0xF7)) ||
    (0x4E00 ≤ c.toNat && c.toNat ≤ 0x9FFF)

/-- Occurrence scan of `highlight_match` for one query word (src/main.rs
lines 727-762).  The boundary checks index `lower.chars().nth(...)` with a
BYTE offset, exactly as the source does. -/
def scanWord (textL lower word : List Char) :
    Nat → Nat → List (Nat × Nat) → List (Nat × Nat) × Bool
  | 0, _, ranges => (ranges, true)
  | fuel + 1, searchPos, ranges =>
    match byteDrop? searchPos lower with
    | none => (ranges, true)
    | some suffix =>
      match substrFind word suffix with
      | none => (ranges, false)
      | some rel =>
        let bytePos := searchPos + rel
        let wlen := byteLen word
        let atStart := bytePos == 0 ||
          (((lower.get? (bytePos - 1)).map
            (fun c => !(rustIsAlphanumeric c))).getD true)
        let atEnd := decide (byteLen lower ≤ bytePos + wlen) ||
          (((lower.get? (bytePos + wlen)).map
            (fun c => !(rustIsAlphanumeric c))).getD true)
        let ranges2 :=
          if atStart && atEnd then
            let overlaps := ranges.any (fun r =>
              decide (bytePos < r.2) && decide (r.1 < bytePos + wlen))
            if !overlaps then
              ranges ++ [(snapDownLoop (bytePos + 1) textL bytePos,
                snapUpLoop (byteLen textL + 1) textL (bytePos + wlen))]
            else ranges
          else ranges
        scanWord textL lower word fuel (bytePos + 1) ranges2

/-- Model of the range-collection phase of `highlight_match` (src/main.rs
lines 714-763): split the query on whitespace, lowercase with
`rustToLowercase` (which, like Rust's `to_lowercase`, need not preserve
byte length), keep words of at least three bytes, and scan each word in
order, accumulating accepted ranges. -/
def highlight_ranges (textL query : List Char) : List (Nat × Nat) × Bool :=
  let lower_text := rustToLowercase textL
  let query_words := ((split_whitespace query).map
    rustToLowercase).filter (fun w => decide (3 ≤ byteLen w))
  query_words.foldl
    (fun acc word =>
      let r := scanWord textL lower_text word (byteLen lower_text + 1) 0 acc.1
      (r.1, acc.2 || r.2))
    ([], false)

/-- Whole-word condition on a byte range of a text: the character ending
immediately before the range and the character starting immediately after
it, when they exist, are not alphanumeric. -/
def wholeWordAt (text : List Char) (r : Nat × Nat) : Prop :=
  (r.1 = 0 ∨ ∃ c, (byteTakeDown r.1 text).getLast? = some c ∧
    rustIsAlphanumeric c = false) ∧
  (byteLen text ≤ r.2 ∨ ∃ c, ((byteDrop? r.2 text).bind List.head?) = some c ∧
    rustIsAlphanumeric c = false)

/-- C6 counterexample: on the text 日日日日abc (four three-byte CJK
letters, then "abc") with query "abc", the match of "abc" at bytes 12-15 is
accepted for emphasis — the boundary check reads `chars().nth(11)` (a byte
offset used as a character index), which is past the end of the 7-character
text and so counts as a boundary — although the character immediately
before the matched range is the alphanumeric 日. -/
theorem highlight_not_whole_word :
    (highlight_ranges (String.toList "日日日日abc")
        (String.toList "abc")).1 = [(12, 15)] ∧
      (byteTakeDown 12 (String.toList "日日日日abc")).getLast? = some '日' ∧
      rustIsAlphanumeric '日' = true := by
  refine ⟨by decide, by decide, by decide⟩

/-! ### Candidate-range geometry -/

theorem isBoundaryB_drop (cs : List Char) (i n : Nat)
    (h : isBoundaryB (cs.drop i) n = true) :
    isBoundaryB cs (byteLen (cs.take i) + n) = true := by
  obtain ⟨j, hj⟩ := isBoundaryB_exists_take (cs.drop i) n h
  have h2 : byteLen (cs.take i) + n = byteLen (cs.take (i + j)) := by
    rw [hj, List.take_add, byteLen_append]
  rw [h2]
  exact isBoundary_byteLen_take cs (i + j)

theorem candidate_bounds {lower suffix word : List Char}
    {searchPos rel : Nat}
    (hdrop : byteDrop? searchPos lower = some suffix)
    (hfind : substrFind word suffix = some rel) :
    isBoundaryB lower (searchPos + rel) = true ∧
      isBoundaryB lower (searchPos + rel + byteLen word) = true ∧
      searchPos + rel + byteLen word ≤ byteLen lower := by
  obtain ⟨i, hi, hs⟩ := byteDrop?_some lower searchPos suffix hdrop
  obtain ⟨hb1, hb2, hle⟩ := substrFind_boundaries word suffix rel hfind
  subst hs
  refine ⟨?_, ?_, ?_⟩
  · have := isBoundaryB_drop lower i rel hb1
    rw [← hi] at this
    exact this
  · have := isBoundaryB_drop lower i (rel + byteLen word) hb2
    rw [← hi, ← Nat.add_assoc] at this
    exact this
  · have hsplit : byteLen lower = byteLen (lower.take i) + byteLen (lower.drop i) := by
      rw [← byteLen_append, List.take_append_drop]
    omega

theorem rustToLowercase_eq_map {cs : List Char} (h : ∀ c ∈ cs, c ≠ 'İ') :
    rustToLowercase cs = cs.map Char.toLower := by
  induction cs with
  | nil => rfl
  | cons c cs ih =>
    show (rustToLowerChar c :: (cs.map rustToLowerChar)).flatten = _
    rw [List.flatten_cons]
    rw [show rustToLowerChar c = [c.toLower] from
      if_neg (h c (by simp))]
    show c.toLower :: rustToLowercase cs = _
    rw [ih (fun d hd => h d (by simp [hd]))]
    rfl

theorem scanWord_disjoint (textL word : List Char) :
    ∀ (fuel searchPos : Nat) (ranges : List (Nat × Nat)),
      ranges.Pairwise (fun r1 r2 => r1.2 ≤ r2.1 ∨ r2.2 ≤ r1.1) →
      (scanWord textL (textL.map Char.toLower) word fuel
        searchPos ranges).1.Pairwise
        (fun r1 r2 => r1.2 ≤ r2.1 ∨ r2.2 ≤ r1.1) := by
  intro fuel
  induction fuel with
  | zero => intro searchPos ranges hp; exact hp
  | succ fuel ih =>
    intro searchPos ranges hp
    rw [scanWord]
    split
    · exact hp
    · next suffix hdrop =>
      split
      · exact hp
      · next rel hfind =>
        apply ih
        split
        · next hacc =>
          dsimp only
          split
          · next hov =>
            obtain ⟨hbnd1, hbnd2, hlen⟩ := candidate_bounds hdrop hfind
            rw [isBoundaryB_map_toLower] at hbnd1 hbnd2
            rw [snapDownLoop_eq_of_boundary textL _ _ hbnd1]
            rw [snapUpLoop_eq_of_boundary textL _ _ hbnd2]
            rw [List.pairwise_append]
            refine ⟨hp, by simp, ?_⟩
            intro a ha b hb
            have hb2 : b = (searchPos + rel, searchPos + rel + byteLen word) := by
              simpa using hb
            subst hb2
            have hov2 : ranges.any (fun r =>
                decide (searchPos + rel < r.2) &&
                  decide (r.1 < searchPos + rel + byteLen word)) = false := by
              simpa using hov
            rw [List.any_eq_false] at hov2
            have hfa := hov2 a ha
            simp only [Bool.and_eq_true, decide_eq_true_eq, not_and] at hfa
            by_cases h1 : searchPos + rel < a.2
            · have := hfa h1
              right
              simpa using this
            · left
              omega
          · exact hp
        · exact hp

/-- C7 counterexample: on the text İİİİİİİİ (eight copies of U+0130,
16 bytes) with query İ, lowercasing expands every İ to "i" + U+0307
(24 bytes), so match positions found in the lowered text run past the end
of the original text; snapping them to boundaries of the original text
yields the accepted ranges (16, 21) and (16, 24), which overlap on bytes
16-21 — the accepted set is not pairwise non-overlapping. -/
theorem highlight_ranges_overlap :
    (highlight_ranges (String.toList "İİİİİİİİ") (String.toList "İ")).1
        = [(0, 4), (6, 10), (12, 16), (16, 21), (16, 24)] ∧
      (16, 21) ∈ (highlight_ranges (String.toList "İİİİİİİİ")
        (String.toList "İ")).1 ∧
      (16, 24) ∈ (highlight_ranges (String.toList "İİİİİİİİ")
        (String.toList "İ")).1 ∧
      ¬ (((16, 21) : Nat × Nat).2 ≤ ((16, 24) : Nat × Nat).1 ∨
          ((16, 24) : Nat × Nat).2 ≤ ((16, 21) : Nat × Nat).1) := by
  refine ⟨by decide, by decide, by decide, by decide⟩

/-- C7 (amended): for every display text none of whose characters changes
UTF-8 byte length under lowercasing (in this model: text without İ,
U+0130, the length-changing case in scope) and every query, the byte
ranges the highlighter accepts are pairwise non-overlapping — every
candidate occurrence is tested against all previously accepted ranges and
discarded on overlap.  On such text, byte offsets found in the lowered
text are character boundaries of the original text, so the snapped range
equals the candidate range the overlap test checked; the counterexample
shows the property fails when lowercasing changes byte offsets. -/
theorem highlight_ranges_disjoint (textL query : List Char)
    (hpres : ∀ c ∈ textL, c ≠ 'İ') :
    (highlight_ranges textL query).1.Pairwise
      (fun r1 r2 => r1.2 ≤ r2.1 ∨ r2.2 ≤ r1.1) := by
  simp only [highlight_ranges]
  rw [rustToLowercase_eq_map hpres]
  have hgen : ∀ (ws : List (List Char)) (acc : List (Nat × Nat) × Bool),
      acc.1.Pairwise (fun r1 r2 => r1.2 ≤ r2.1 ∨ r2.2 ≤ r1.1) →
      (ws.foldl
        (fun acc word =>
          let r := scanWord textL (textL.map Char.toLower) word
            (byteLen (textL.map Char.toLower) + 1) 0 acc.1
          (r.1, acc.2 || r.2))
        acc).1.Pairwise (fun r1 r2 => r1.2 ≤ r2.1 ∨ r2.2 ≤ r1.1) := by
    intro ws
    induction ws with
    | nil => intro acc hacc; exact hacc
    | cons w ws ih =>
      intro acc hacc
      rw [List.foldl_cons]
      exact ih _ (scanWord_disjoint textL w _ 0 acc.1 hacc)
  exact hgen _ ([], false) (by simp)

/-- C7 witness: the disjointness theorem applied to a concrete
length-preserving text and query. -/
theorem highlight_ranges_disjoint_witness :
    (∀ c ∈ String.toList "foo bar", c ≠ 'İ') ∧
      (highlight_ranges (String.toList "foo bar")
        (String.toList "foo bar")).1.Pairwise
        (fun r1 r2 => r1.2 ≤ r2.1 ∨ r2.2 ≤ r1.1) :=
  ⟨by decide, highlight_ranges_disjoint (String.toList "foo bar")
    (String.toList "foo bar") (by decide)⟩

/-! ### Whole-word acceptance on ASCII text (claim C6) -/

theorem byteLen_ascii {cs : List Char} (h : ∀ c ∈ cs, c.toNat ≤ 127) :
    byteLen cs = cs.length := by
  induction cs with
  | nil => rfl
  | cons c cs ih =>
    have h1 : c.utf8Size = 1 := utf8Size_eq_one_of_toNat_le (h c (by simp))
    have h2 := ih (fun d hd => h d (by simp [hd]))
    simp only [byteLen, List.map_cons, List.sum_cons, List.length_cons] at *
    omega

theorem byteTakeDown_ascii {cs : List Char} (h : ∀ c ∈ cs, c.toNat ≤ 127) :
    ∀ n, byteTakeDown n cs = cs.take n := by
  induction cs with
  | nil => intro n; simp [byteTakeDown]
  | cons c cs ih =>
    intro n
    have h1 : c.utf8Size = 1 := utf8Size_eq_one_of_toNat_le (h c (by simp))
    cases n with
    | zero => rw [byteTakeDown, if_neg (by omega)]; rfl
    | succ m =>
      rw [byteTakeDown, if_pos (by omega), h1]
      rw [ih (fun d hd => h d (by simp [hd]))]
      rfl

theorem byteDrop?_ascii {cs : List Char} (h : ∀ c ∈ cs, c.toNat ≤ 127) :
    ∀ n, n ≤ cs.length → byteDrop? n cs = some (cs.drop n) := by
  induction cs with
  | nil =>
    intro n hn
    have hn0 : n = 0 := by simpa using hn
    subst hn0
    rfl
  | cons c cs ih =>
    intro n hn
    have h1 : c.utf8Size = 1 := utf8Size_eq_one_of_toNat_le (h c (by simp))
    cases n with
    | zero => rfl
    | succ m =>
      rw [byteDrop?, if_pos (by omega), h1]
      have hm : m + 1 - 1 = m := by omega
      rw [hm, ih (fun d hd => h d (by simp [hd])) m (by simpa using hn)]
      rfl

theorem toNat_toLower_le {c : Char} (h : c.toNat ≤ 127) :
    c.toLower.toNat ≤ 127 := by
  unfold Char.toLower
  by_cases hr : c.toNat ≥ 65 ∧ c.toNat ≤ 90
  · rw [if_pos hr]
    have hval := char_toNat_ofNat_add32 hr.1 hr.2
    omega
  · rw [if_neg hr]
    exact h

theorem rustIsAlphanumeric_toLower (c : Char) :
    rustIsAlphanumeric c.toLower = rustIsAlphanumeric c := by
  unfold Char.toLower
  by_cases hr : c.toNat ≥ 65 ∧ c.toNat ≤ 90
  · rw [if_pos hr]
    obtain ⟨h1, h2⟩ := hr
    have hval := char_toNat_ofNat_add32 h1 h2
    have hL : rustIsAlphanumeric (Char.ofNat (c.toNat + 32)) = true := by
      simp only [rustIsAlphanumeric, hval, Bool.or_eq_true, Bool.and_eq_true,
        decide_eq_true_eq, Bool.not_eq_true', beq_eq_false_iff_ne, ne_eq]
      omega
    have hR : rustIsAlphanumeric c = true := by
      simp only [rustIsAlphanumeric, Bool.or_eq_true, Bool.and_eq_true,
        decide_eq_true_eq, Bool.not_eq_true', beq_eq_false_iff_ne, ne_eq]
      omega
    rw [hL, hR]
  · rw [if_neg hr]

theorem getLast?_take_eq {α : Type} (l : List α) (n : Nat) (h1 : 1 ≤ n)
    (h2 : n ≤ l.length) : (l.take n).getLast? = l.get? (n - 1) := by
  rw [List.getLast?_eq_getElem?]
  have hlen : (l.take n).length = n := by
    simp [Nat.min_eq_left h2]
  rw [hlen, List.getElem?_take_of_lt (by omega), List.get?_eq_getElem?]

theorem head?_drop_eq {α : Type} (l : List α) (n : Nat) :
    (l.drop n).head? = l.get? n := by
  rw [List.head?_eq_getElem?, List.getElem?_drop, Nat.add_zero,
    List.get?_eq_getElem?]

theorem byteLen_pos_of_ne_nil {w : List Char} (h : w ≠ []) :
    1 ≤ byteLen w := by
  cases w with
  | nil => exact absurd rfl h
  | cons c cs =>
    have := utf8Size_pos c
    simp only [byteLen, List.map_cons, List.sum_cons]
    omega

theorem scanWord_whole_word (textL word : List Char)
    (hascii : ∀ c ∈ textL, c.toNat ≤ 127) (hw : word ≠ []) :
    ∀ (fuel searchPos : Nat) (ranges : List (Nat × Nat)),
      (∀ r ∈ ranges, wholeWordAt textL r) →
      ∀ r ∈ (scanWord textL (textL.map Char.toLower) word fuel
        searchPos ranges).1, wholeWordAt textL r := by
  have hlenmap : byteLen (textL.map Char.toLower) = textL.length := by
    rw [byteLen_map_toLower, byteLen_ascii hascii]
  intro fuel
  induction fuel with
  | zero => intro searchPos ranges hr; exact hr
  | succ fuel ih =>
    intro searchPos ranges hr
    rw [scanWord]
    split
    · exact hr
    · next suffix hdrop =>
      split
      · exact hr
      · next rel hfind =>
        apply ih
        split
        · next hacc =>
          dsimp only
          split
          · next hov =>
            obtain ⟨hbnd1, hbnd2, hlen⟩ := candidate_bounds hdrop hfind
            rw [isBoundaryB_map_toLower] at hbnd1 hbnd2
            rw [snapDownLoop_eq_of_boundary textL _ _ hbnd1]
            rw [snapUpLoop_eq_of_boundary textL _ _ hbnd2]
            intro r hrmem
            rcases List.mem_append.mp hrmem with hrold | hrnew
            · exact hr r hrold
            · have hrng : r = (searchPos + rel, searchPos + rel + byteLen word) := by
                simpa using hrnew
              subst hrng
              rw [Bool.and_eq_true] at hacc
              obtain ⟨hstart, hend⟩ := hacc
              have hwpos : 1 ≤ byteLen word := byteLen_pos_of_ne_nil hw
              have hbound : searchPos + rel + byteLen word ≤ textL.length := by
                rw [← hlenmap]
                exact hlen
              have hposlt : searchPos + rel < textL.length := by omega
              constructor
              · by_cases hbp0 : searchPos + rel = 0
                · left
                  exact hbp0
                · right
                  rw [Bool.or_eq_true] at hstart
                  rcases hstart with h0 | hprev
                  · exact absurd (by simpa using h0) hbp0
                  · have hidx : searchPos + rel - 1 < textL.length := by omega
                    have hget : (textL.map Char.toLower).get? (searchPos + rel - 1)
                        = some (textL.get ⟨searchPos + rel - 1, hidx⟩).toLower := by
                      rw [List.get?_map, List.get?_eq_get hidx]
                      rfl
                    rw [hget] at hprev
                    simp only [Option.map_some', Option.getD_some,
                      Bool.not_eq_true'] at hprev
                    refine ⟨textL.get ⟨searchPos + rel - 1, hidx⟩, ?_, ?_⟩
                    · rw [byteTakeDown_ascii hascii]
                      rw [getLast?_take_eq textL (searchPos + rel) (by omega)
                        (by omega)]
                      rw [List.get?_eq_get hidx]
                    · rw [← rustIsAlphanumeric_toLower]
                      exact hprev
              · by_cases hbig : textL.length ≤ searchPos + rel + byteLen word
                · left
                  rw [byteLen_ascii hascii]
                  exact hbig
                · right
                  rw [Bool.or_eq_true] at hend
                  rcases hend with hdec | hnext
                  · rw [decide_eq_true_eq, hlenmap] at hdec
                    exact absurd hdec hbig
                  · have hidx : searchPos + rel + byteLen word < textL.length := by
                      omega
                    have hget : (textL.map Char.toLower).get?
                        (searchPos + rel + byteLen word)
                        = some (textL.get ⟨searchPos + rel + byteLen word,
                            hidx⟩).toLower := by
                      rw [List.get?_map, List.get?_eq_get hidx]
                      rfl
                    rw [hget] at hnext
                    simp only [Option.map_some', Option.getD_some,
                      Bool.not_eq_true'] at hnext
                    refine ⟨textL.get ⟨searchPos + rel + byteLen word, hidx⟩,
                      ?_, ?_⟩
                    · rw [byteDrop?_ascii hascii _ (by omega)]
                      show (textL.drop (searchPos + rel + byteLen word)).head? = _
                      rw [head?_drop_eq, List.get?_eq_get hidx]
                    · rw [← rustIsAlphanumeric_toLower]
                      exact hnext
          · exact hr
        · exact hr

/-- C6 (amended): for text consisting solely of ASCII characters — on
which the byte offsets used by the source's boundary check coincide with
character indices — every occurrence the highlighter accepts for emphasis
is a whole word: the character immediately before the accepted byte range
and the character immediately after it, when they exist, are not
alphanumeric.  (On multi-byte text the byte-offset-as-character-index
check can accept a non-whole-word occurrence; see the counterexample.) -/
theorem highlight_ranges_whole_word (textL query : List Char)
    (hascii : ∀ c ∈ textL, c.toNat ≤ 127) :
    ∀ r ∈ (highlight_ranges textL query).1, wholeWordAt textL r := by
  have hnoI : ∀ c ∈ textL, c ≠ 'İ' := by
    intro c hc hc2
    have := hascii c hc
    rw [hc2] at this
    exact absurd this (by decide)
  simp only [highlight_ranges]
  rw [rustToLowercase_eq_map hnoI]
  have hgen : ∀ (ws : List (List Char)), (∀ w ∈ ws, w ≠ []) →
      ∀ (acc : List (Nat × Nat) × Bool),
      (∀ r ∈ acc.1, wholeWordAt textL r) →
      ∀ r ∈ (ws.foldl
        (fun acc word =>
          let r := scanWord textL (textL.map Char.toLower) word
            (byteLen (textL.map Char.toLower) + 1) 0 acc.1
          (r.1, acc.2 || r.2))
        acc).1, wholeWordAt textL r := by
    intro ws
    induction ws with
    | nil => intro hws acc hacc; exact hacc
    | cons w ws ih =>
      intro hws acc hacc
      rw [List.foldl_cons]
      refine ih (fun u hu => hws u (by simp [hu])) _ ?_
      exact scanWord_whole_word textL w hascii (hws w (by simp)) _ 0 acc.1 hacc
  apply hgen
  · intro w hwmem
    rcases List.mem_filter.mp hwmem with ⟨_, hwlen⟩
    rw [decide_eq_true_eq] at hwlen
    intro hnil
    rw [hnil] at hwlen
    simp [byteLen] at hwlen
  · simp

/-- C6 witness: the whole-word theorem applied to the ASCII text "foo x"
and query "foo", whose single accepted range is bytes 0-3. -/
theorem highlight_whole_word_witness :
    (∀ c ∈ String.toList "foo x", c.toNat ≤ 127) ∧
      (0, 3) ∈ (highlight_ranges (String.toList "foo x")
        (String.toList "foo")).1 ∧
      wholeWordAt (String.toList "foo x") (0, 3) :=
  ⟨by decide, by decide,
    highlight_ranges_whole_word (String.toList "foo x")
      (String.toList "foo") (by decide) (0, 3) (by decide)⟩

end Convo
